import Mathlib

/-!
# libply: binary PLY reader / writer

A shallow embedding of `src/ply.cpp` and `src/ply2.cpp`.

* A C++ `char` is modelled by a Lean `Char`; a `std::string`, a file and a block of
  object memory are lists of them (`Str`).
* A `float` is modelled by its four bytes of object representation (`F32`); the code
  only ever copies these bytes, it does no floating point arithmetic.
* An input file stream is the list of characters not yet consumed.  A stream whose
  `eofbit`/`failbit` is set has no characters left, and an extraction from a stream with
  no characters left stores nothing, so the remaining characters determine everything
  the programs observe.
* The host byte order is a parameter `hostLE` (the value of `isLittleEndian()`).
* C++ exceptions are the `Except.error` results.
-/

namespace Libply

/-- One `std::string`: the sequence of its `char`s. -/
abbrev Str := List Char

/-- The exceptions that the modelled code can raise. -/
inductive Exn where
  /-- The exception `std::invalid_argument` (from `std::stoi`: no digits). -/
  | invalidArgument
  /-- The exception `std::out_of_range` (from `std::stoi`: value outside `int`). -/
  | outOfRange
  /-- An access outside the bytes of the vertex object (undefined in C++). -/
  | outOfObject
  /-- The exception `std::length_error` (from `std::vector::resize`: more elements than
  `max_size()`). -/
  | lengthError
  deriving DecidableEq, Repr

/-- Equality of results is decidable. -/
instance instDecidableEqExcept {ε α : Type} [DecidableEq ε] [DecidableEq α] :
    DecidableEq (Except ε α)
  | .ok a, .ok b => if h : a = b then isTrue (by rw [h]) else isFalse (by intro h2; cases h2; exact h rfl)
  | .error a, .error b => if h : a = b then isTrue (by rw [h]) else isFalse (by intro h2; cases h2; exact h rfl)
  | .ok _, .error _ => isFalse (by intro h; cases h)
  | .error _, .ok _ => isFalse (by intro h; cases h)

/-! ## The pieces of the C++ standard library that the code calls -/

/-- Whether `pat` is an initial segment of `s` (a match of `pat` at position 0). -/
def startsWith : Str → Str → Bool
  | _, [] => true
  | [], _ :: _ => false
  | c :: cs, p :: ps => c == p && startsWith cs ps

/-- The call `s.find(pat)`: the first position where `pat` occurs, `none` for `npos`. -/
def find : Str → Str → Option Nat
  | [], pat => if pat = [] then some 0 else none
  | c :: cs, pat =>
    if startsWith (c :: cs) pat then some 0
    else (find cs pat).map (· + 1)

/-- The test `s.find(pat) != std::string::npos`. -/
def contains (s pat : Str) : Bool := (find s pat).isSome

/-- The call `s.find_last_of(c)` for a single character: the last position of `c` in `s`,
`none` for `npos`. -/
def find_last_of : Str → Char → Option Nat
  | [], _ => none
  | x :: xs, c =>
    match find_last_of xs c with
    | some i => some (i + 1)
    | none => if x = c then some 0 else none

/-- The expression `s.substr(s.find_last_of(c) + 1)`.  When `c` does not occur,
`npos + 1` wraps to `0` and the whole string is returned. -/
def substrAfterLast (s : Str) (c : Char) : Str :=
  match find_last_of s c with
  | some i => s.drop (i + 1)
  | none => s.drop 0

/-- The call `std::getline(stream, line, delim)`: `none` when nothing can be extracted
(the stream is exhausted); otherwise the characters up to the first `delim`, which is
consumed and not stored, and the rest of the stream. -/
def getlineDelim (delim : Char) : Str → Option (Str × Str)
  | [] => none
  | c :: cs =>
    if c = delim then some ([], cs)
    else
      match getlineDelim delim cs with
      | none => some ([c], [])
      | some (l, rest) => some (c :: l, rest)

/-- The call `std::getline(stream, line)`: the delimiter is the newline. -/
def getline (file : Str) : Option (Str × Str) := getlineDelim '\n' file

/-- The predicate `isspace` of the C locale. -/
def isspace (c : Char) : Bool :=
  c = ' ' || c = '\t' || c = '\n' || c = '\x0b' || c = '\x0c' || c = '\r'

/-- The value of a decimal digit character. -/
def digitVal (c : Char) : Nat := c.toNat - 48

/-- The value of a run of decimal digits, most significant first. -/
def digitsVal (ds : Str) : Nat := ds.foldl (fun a c => a * 10 + digitVal c) 0

/-- The largest `int`. -/
def INT_MAX : Int := 2147483647

/-- The smallest `int`. -/
def INT_MIN : Int := -2147483648

/-- The call `std::stoi(s)`: skips leading white space, takes an optional sign and the
longest run of decimal digits; throws `std::invalid_argument` when there is no digit
and `std::out_of_range` when the value does not fit an `int`. -/
def stoi (s : Str) : Except Exn Int :=
  let s1 := s.dropWhile isspace
  let neg := s1.head? == some '-'
  let s2 := if s1.head? == some '-' || s1.head? == some '+' then s1.drop 1 else s1
  let ds := s2.takeWhile Char.isDigit
  if ds = [] then .error .invalidArgument
  else
    let v : Int := if neg then -(digitsVal ds : Int) else (digitsVal ds : Int)
    if v < INT_MIN ∨ INT_MAX < v then .error .outOfRange else .ok v

/-- The conversion of an `int` to `size_t` (64 bits): reduction modulo `2^64`. -/
def toSizeT (v : Int) : Nat := (v % 18446744073709551616).toNat

/-- The text that `stream << n` emits for an unsigned integer: `n` in decimal. -/
def decimal (n : Nat) : Str := Nat.toDigits 10 n

/-- The value of `max_size()` of a `std::vector` whose elements have `sizeofT` bytes, on
a 64-bit host: `PTRDIFF_MAX / sizeof(T)`. -/
def max_size (sizeofT : Nat) : Nat := 9223372036854775807 / sizeofT

/-- The call `stream.read(p, n)` on a stream holding `file`: the characters stored at
`p` (all `n` when available, otherwise the ones that are left) and the rest of the
stream. -/
def streamRead (n : Nat) (file : Str) : Str × Str := (file.take n, file.drop n)

/-- Memory `old` after `got` has been stored at its start. -/
def overlay (old got : Str) : Str := got ++ old.drop got.length

/-- A `float`: the four bytes of its object representation, in memory order. -/
structure F32 where
  b0 : Char
  b1 : Char
  b2 : Char
  b3 : Char
  deriving DecidableEq, Repr

/-- The bytes of a `float` in memory order. -/
def F32.bytes (f : F32) : Str := [f.b0, f.b1, f.b2, f.b3]

/-- The `float` held by the first four bytes of `bs`. -/
def F32.ofBytes (bs : Str) : F32 :=
  ⟨bs.getD 0 '\x00', bs.getD 1 '\x00', bs.getD 2 '\x00', bs.getD 3 '\x00'⟩

/-- The `float` with IEEE-754 bit pattern `bits` as laid out in memory on the host. -/
def F32.ofBits (hostLE : Bool) (bits : Nat) : F32 :=
  let lo := Char.ofNat (bits % 256)
  let ml := Char.ofNat (bits / 256 % 256)
  let mh := Char.ofNat (bits / 65536 % 256)
  let hi := Char.ofNat (bits / 16777216 % 256)
  if hostLE then ⟨lo, ml, mh, hi⟩ else ⟨hi, mh, ml, lo⟩

/-- The line that ends a header. -/
def end_header : Str := "end_header".toList

/-- The text made of the lines `ls`, each followed by one newline, followed by `rest`. -/
def joinLines : List Str → Str → Str
  | [], rest => rest
  | l :: ls, rest => l ++ '\n' :: joinLines ls rest

/-- The line number `i` (from 0) of a text, as `std::getline` delivers it. -/
def nthLine : Nat → Str → Option Str
  | 0, text => (getline text).map (fun p => p.1)
  | i + 1, text =>
    match getline text with
    | none => none
    | some (_, rest) => nthLine i rest

/-- The header line `format binary_little_endian 1.0` or `format binary_big_endian 1.0`. -/
def formatLine (littleEndian : Bool) : Str :=
  if littleEndian then "format binary_little_endian 1.0".toList
  else "format binary_big_endian 1.0".toList

/-- The header line `element vertex N` with `N` in decimal. -/
def elementLine (n : Nat) : Str := "element vertex ".toList ++ decimal n

/-- The header line `property <typeName> <fieldName>`. -/
def propertyLine (typeName fieldName : Str) : Str :=
  "property ".toList ++ typeName ++ " ".toList ++ fieldName

/-! ## `src/ply2.cpp` -/

namespace Ply2

/-- The C++ types that have a `TypeInfo` specialisation. -/
inductive CType where
  | char | uchar | short | ushort | int | uint | float | double
  deriving DecidableEq, Repr

/-- The name `TypeInfo<T>::getName()`. -/
def TypeInfo.getName : CType → Str
  | .char => "char".toList
  | .uchar => "uchar".toList
  | .short => "short".toList
  | .ushort => "ushort".toList
  | .int => "int".toList
  | .uint => "uint".toList
  | .float => "float".toList
  | .double => "double".toList

/-- The size `TypeInfo<T>::getSize()`, that is `sizeof(T)`. -/
def TypeInfo.getSize : CType → Nat
  | .char => 1
  | .uchar => 1
  | .short => 2
  | .ushort => 2
  | .int => 4
  | .uint => 4
  | .float => 4
  | .double => 8

/-- One entry of `getMembers()`: the tuple built by `MEMBER_INFO` (the member pointer,
which the code never uses, is left out). -/
structure Member where
  name : Str
  typeName : Str
  size : Nat
  deriving DecidableEq, Repr

/-- The tuple `MEMBER_INFO(type, member, memberType)`. -/
def MEMBER_INFO (member : Str) (memberType : CType) : Member :=
  ⟨member, TypeInfo.getName memberType, TypeInfo.getSize memberType⟩

/-- The packed (`#pragma pack(1)`) struct `CustomVertex`: 15 bytes. -/
structure CustomVertex where
  x : F32
  y : F32
  z : F32
  r : Char
  g : Char
  b : Char
  deriving DecidableEq, Repr

/-- The value of `sizeof(CustomVertex)`. -/
def sizeofCustomVertex : Nat := 15

/-- The member list `CustomVertex::getMembers()`. -/
def CustomVertex.getMembers : List Member :=
  [MEMBER_INFO "x".toList .float, MEMBER_INFO "y".toList .float,
   MEMBER_INFO "z".toList .float, MEMBER_INFO "r".toList .uchar,
   MEMBER_INFO "g".toList .uchar, MEMBER_INFO "b".toList .uchar]

/-- The object representation of a vertex: its 15 bytes in memory order. -/
def CustomVertex.bytes (v : CustomVertex) : Str :=
  v.x.bytes ++ v.y.bytes ++ v.z.bytes ++ [v.r, v.g, v.b]

/-- The vertex whose object representation is (the first 15 bytes of) `bs`. -/
def CustomVertex.ofBytes (bs : Str) : CustomVertex :=
  ⟨F32.ofBytes bs, F32.ofBytes (bs.drop 4), F32.ofBytes (bs.drop 8),
   bs.getD 12 '\x00', bs.getD 13 '\x00', bs.getD 14 '\x00'⟩

/-- The value-initialised vertex that `vertices.resize` creates: all bytes zero. -/
def CustomVertex.zero : CustomVertex :=
  ⟨⟨'\x00', '\x00', '\x00', '\x00'⟩, ⟨'\x00', '\x00', '\x00', '\x00'⟩,
   ⟨'\x00', '\x00', '\x00', '\x00'⟩, '\x00', '\x00', '\x00'⟩

/-- The function `printMembersImpl`: one `property` line per member, in tuple order. -/
def printMembersImpl : List Member → Str → Str
  | [], file => file
  | m :: ms, file =>
    printMembersImpl ms (file ++ "property ".toList ++ m.typeName ++ " ".toList ++ m.name ++ "\n".toList)

/-- The function `isLittleEndian()` on a host with byte order `hostLE`: the first byte
of the `unsigned int` 1 is 1 exactly on a little-endian host. -/
def isLittleEndian (hostLE : Bool) : Bool :=
  (if hostLE then ['\x01', '\x00', '\x00', '\x00'] else ['\x00', '\x00', '\x00', '\x01']).head? == some '\x01'

/-- The function template `swapEndian<T>`, on the object representation of the value:
`resultPtr[i] = valuePtr[sizeof(T) - 1 - i]` for `i` from `0` to `sizeof(T) - 1`. -/
def swapEndian (value : Str) : Str :=
  (List.range value.length).map (fun i => value.getD (value.length - 1 - i) '\x00')

/-- The instance `swapEndian<float>`. -/
def swapEndianF32 (value : F32) : F32 := F32.ofBytes (swapEndian value.bytes)

/-- The state of a `PlyBinaryIO` object (the file name plays no role). -/
structure PlyBinaryIO where
  vertex_count_ : Nat
  deriving DecidableEq, Repr

/-- A freshly constructed object: `vertex_count_ = 0`. -/
def PlyBinaryIO.new : PlyBinaryIO := ⟨0⟩

/-- The body of the `while` loop of `readHeader` after the `end_header` test, on one
line: the new `vertex_count_` and `fileIsLittleEndian`. -/
def readHeaderLine (line : Str) (st : Nat × Bool) : Except Exn (Nat × Bool) := do
  let count ←
    if contains line "element vertex".toList then
      (stoi (substrAfterLast line ' ')).map toSizeT
    else pure st.1
  let le :=
    if contains line "format".toList then
      if contains line "binary_big_endian".toList then false
      else if contains line "binary_little_endian".toList then true
      else st.2
    else st.2
  pure (count, le)

/-- The `while (std::getline(file, line))` loop of `readHeader`, one iteration per unit
of fuel; the result is the state and the unread rest of the stream. -/
def readHeaderLoop : Nat → Str → Nat × Bool → Except Exn ((Nat × Bool) × Str)
  | 0, file, st => .ok (st, file)
  | fuel + 1, file, st =>
    match getline file with
    | none => .ok (st, [])
    | some (line, rest) =>
      if line = end_header then .ok (st, rest)
      else
        match readHeaderLine line st with
        | .error e => .error e
        | .ok st2 => readHeaderLoop fuel rest st2

/-- The effect of the loop body on a list of lines, none of which ends the header. -/
def readHeaderLines : List Str → Nat × Bool → Except Exn (Nat × Bool)
  | [], st => .ok st
  | l :: ls, st =>
    match readHeaderLine l st with
    | .error e => .error e
    | .ok st2 => readHeaderLines ls st2

/-- A line that the loop of `readHeader` passes over: it holds no newline, is not
`end_header`, and contains neither `element vertex` nor `format`. -/
def passedOver (l : Str) : Bool :=
  !l.elem '\n' && l != end_header && !contains l "element vertex".toList
    && !contains l "format".toList

/-- The method `readHeader`: every iteration consumes at least one character, so
`file.length + 1` iterations always suffice.  Returns the object, `fileIsLittleEndian`
and the unread rest of the stream. -/
def readHeader (io : PlyBinaryIO) (file : Str) : Except Exn ( PlyBinaryIO × Bool × Str) :=
  match readHeaderLoop (file.length + 1) file (io.vertex_count_, true) with
  | .error e => .error e
  | .ok ((count, le), rest) => .ok (⟨count⟩, le, rest)

/-- The method `writeHeader<VertexType>`, appending to the stream `file`; `members` is
`VertexType::getMembers()`. -/
def writeHeader (hostLE : Bool) (io : PlyBinaryIO) (members : List Member) (file : Str) : Str :=
  let file := file ++ "ply\n".toList
  let file :=
    if isLittleEndian hostLE then file ++ "format binary_little_endian 1.0\n".toList
    else file ++ "format binary_big_endian 1.0\n".toList
  let file := file ++ "element vertex ".toList ++ decimal io.vertex_count_ ++ "\n".toList
  let file := printMembersImpl members file
  file ++ "end_header\n".toList

/-- The vertex loop of `write`: each vertex's 15 bytes are appended unchanged. -/
def writeVertices : List CustomVertex → Str → Str
  | [], file => file
  | v :: vs, file => writeVertices vs (file ++ v.bytes)

/-- The method `write<CustomVertex>`: the new object state and the file's content. -/
def write (hostLE : Bool) (_io : PlyBinaryIO) (vertices : List CustomVertex) : PlyBinaryIO × Str :=
  let io : PlyBinaryIO := ⟨vertices.length⟩
  let file := writeHeader hostLE io CustomVertex.getMembers []
  (io, writeVertices vertices file)

/-- The elements of the vector after `vertices.resize(n)` has returned: the first `n`
elements are kept, missing ones are value-initialised. -/
def resized (vertices : List CustomVertex) (n : Nat) : List CustomVertex :=
  vertices.take n ++ List.replicate (n - vertices.length) CustomVertex.zero

/-- The call `vertices.resize(n)`: it throws `std::length_error` when `n` exceeds
`max_size()`; otherwise the storage is taken to be available and the vector holds
`resized vertices n`. -/
def resize (vertices : List CustomVertex) (n : Nat) : Except Exn (List CustomVertex) :=
  if n > max_size sizeofCustomVertex then .error .lengthError
  else .ok (resized vertices n)

/-- One iteration of the vertex loop of `read`: 15 bytes are read over the vertex; when
the byte orders differ `swapEndian<float>` is called on `x`, `y` and `z` and its result
is discarded, as in the source. -/
def readVertex (differ : Bool) (vertex : CustomVertex) (file : Str) : CustomVertex × Str :=
  let (got, rest) := streamRead sizeofCustomVertex file
  let vertex := CustomVertex.ofBytes (overlay vertex.bytes got)
  if differ then
    let _x := swapEndianF32 vertex.x
    let _y := swapEndianF32 vertex.y
    let _z := swapEndianF32 vertex.z
    (vertex, rest)
  else (vertex, rest)

/-- The vertex loop of `read` over the elements of the resized vector. -/
def readVertices (differ : Bool) : List CustomVertex → Str → List CustomVertex
  | [], _ => []
  | vertex :: vs, file =>
    let (vertex2, rest) := readVertex differ vertex file
    vertex2 :: readVertices differ vs rest

/-- The method `read<CustomVertex>` on a file with content `file`; `vertices` is the
content of the caller's vector on entry. -/
def read (hostLE : Bool) (io : PlyBinaryIO) (vertices : List CustomVertex) (file : Str) :
    Except Exn ( PlyBinaryIO × List CustomVertex) :=
  match readHeader io file with
  | .error e => .error e
  | .ok (io2, fileIsLittleEndian, rest) =>
    let systemIsLittleEndian := isLittleEndian hostLE
    match resize vertices io2.vertex_count_ with
    | .error e => .error e
    | .ok vertices2 =>
      .ok (io2, readVertices (fileIsLittleEndian != systemIsLittleEndian) vertices2 rest)

end Ply2

/-! ## `src/ply.cpp` -/

namespace Ply

/-- The enumeration `PropertyType`. -/
inductive PropertyType where
  | CHAR | UCHAR | SHORT | USHORT | INT | UINT | FLOAT | DOUBLE
  deriving DecidableEq, Repr

/-- The constant `TypeInfo<T>::name` of the specialisation whose `type` is the given
enumerator. -/
def TypeInfo.name : PropertyType → Str
  | .CHAR => "char".toList
  | .UCHAR => "uchar".toList
  | .SHORT => "short".toList
  | .USHORT => "ushort".toList
  | .INT => "int".toList
  | .UINT => "uint".toList
  | .FLOAT => "float".toList
  | .DOUBLE => "double".toList

/-- The value `sizeof(T)` of the C++ type behind each enumerator. -/
def sizeofType : PropertyType → Nat
  | .CHAR => 1
  | .UCHAR => 1
  | .SHORT => 2
  | .USHORT => 2
  | .INT => 4
  | .UINT => 4
  | .FLOAT => 4
  | .DOUBLE => 8

/-- The struct `PlyBinaryIO::Property`. -/
structure Property where
  name : Str
  offset : Nat
  size : Nat
  type : PropertyType
  deriving DecidableEq, Repr

/-- The struct `CustomVertex` of `ply.cpp` (not packed): 16 bytes, the last one padding. -/
structure CustomVertex where
  x : F32
  y : F32
  z : F32
  r : Char
  g : Char
  b : Char
  pad : Char
  deriving DecidableEq, Repr

/-- The value of `sizeof(CustomVertex)`. -/
def sizeofCustomVertex : Nat := 16

/-- The object representation of a vertex: its 16 bytes in memory order. -/
def CustomVertex.bytes (v : CustomVertex) : Str :=
  v.x.bytes ++ v.y.bytes ++ v.z.bytes ++ [v.r, v.g, v.b, v.pad]

/-- The vertex whose object representation is (the first 16 bytes of) `bs`. -/
def CustomVertex.ofBytes (bs : Str) : CustomVertex :=
  ⟨F32.ofBytes bs, F32.ofBytes (bs.drop 4), F32.ofBytes (bs.drop 8),
   bs.getD 12 '\x00', bs.getD 13 '\x00', bs.getD 14 '\x00', bs.getD 15 '\x00'⟩

/-- The value-initialised vertex that `vertices.resize` creates: all bytes zero. -/
def CustomVertex.zero : CustomVertex :=
  ⟨⟨'\x00', '\x00', '\x00', '\x00'⟩, ⟨'\x00', '\x00', '\x00', '\x00'⟩,
   ⟨'\x00', '\x00', '\x00', '\x00'⟩, '\x00', '\x00', '\x00', '\x00'⟩

/-- The state of a `PlyBinaryIO` object (the file name plays no role). -/
structure PlyBinaryIO where
  vertex_count_ : Nat
  custom_properties_ : List Property
  deriving DecidableEq, Repr

/-- A freshly constructed object: `vertex_count_ = 0`, no properties. -/
def PlyBinaryIO.new : PlyBinaryIO := ⟨0, []⟩

/-- The `while (std::getline(tokenStream, token, ' '))` loop of `tokenize`, one iteration
per unit of fuel. -/
def tokenizeLoop : Nat → Str → List Str → List Str
  | 0, _, tokens => tokens
  | fuel + 1, tokenStream, tokens =>
    match getlineDelim ' ' tokenStream with
    | none => tokens
    | some (token, rest) =>
      if token ≠ [] then tokenizeLoop fuel rest (tokens ++ [token])
      else tokenizeLoop fuel rest tokens

/-- The method `tokenize`: every iteration consumes at least one character, so
`line.length + 1` iterations always suffice. -/
def tokenize (line : Str) : List Str := tokenizeLoop (line.length + 1) line []

/-- The three properties that `readHeader` puts back after `custom_properties_.clear()`. -/
def xyzProperties : List Property :=
  [⟨"x".toList, 0, 4, .FLOAT⟩, ⟨"y".toList, 4, 4, .FLOAT⟩, ⟨"z".toList, 8, 4, .FLOAT⟩]

/-- The `if`/`else if` chain of `readHeader` over `property_type`: the properties after
the line's own one, if its type name is recognised, has been appended at `offset`. -/
def appendProperty (props : List Property) (property_type property_name : Str) (offset : Nat) :
    List Property :=
  if property_type = TypeInfo.name .UCHAR then
    props ++ [⟨property_name, offset, sizeofType .UCHAR, .UCHAR⟩]
  else if property_type = TypeInfo.name .CHAR then
    props ++ [⟨property_name, offset, sizeofType .CHAR, .CHAR⟩]
  else if property_type = TypeInfo.name .SHORT then
    props ++ [⟨property_name, offset, sizeofType .SHORT, .SHORT⟩]
  else if property_type = TypeInfo.name .USHORT then
    props ++ [⟨property_name, offset, sizeofType .USHORT, .USHORT⟩]
  else if property_type = TypeInfo.name .INT then
    props ++ [⟨property_name, offset, sizeofType .INT, .INT⟩]
  else if property_type = TypeInfo.name .UINT then
    props ++ [⟨property_name, offset, sizeofType .UINT, .UINT⟩]
  else if property_type = TypeInfo.name .FLOAT then
    props ++ [⟨property_name, offset, sizeofType .FLOAT, .FLOAT⟩]
  else if property_type = TypeInfo.name .DOUBLE then
    props ++ [⟨property_name, offset, sizeofType .DOUBLE, .DOUBLE⟩]
  else props

/-- The body of the `while` loop of `readHeader` after the `end_header` test, on one
line.  The properties are cleared and re-seeded with `x`, `y`, `z` on every line, and
`offset` starts at 12 on every line (its increments are never read again). -/
def readHeaderLine (line : Str) (io : PlyBinaryIO) : Except Exn PlyBinaryIO := do
  let count ←
    if contains line "element vertex".toList then
      (stoi (substrAfterLast line ' ')).map toSizeT
    else pure io.vertex_count_
  let props : List Property := xyzProperties
  let offset := 12
  if contains line "property".toList then
    let tokens := tokenize line
    if tokens.length ≥ 3 then
      let property_type := tokens.getD 1 []
      let property_name := tokens.getD 2 []
      pure ⟨count, appendProperty props property_type property_name offset⟩
    else pure ⟨count, props⟩
  else pure ⟨count, props⟩

/-- The `while (std::getline(file, line))` loop of `readHeader`, one iteration per unit
of fuel; the result is the object and the unread rest of the stream. -/
def readHeaderLoop : Nat → Str → PlyBinaryIO → Except Exn ( PlyBinaryIO × Str)
  | 0, file, io => .ok (io, file)
  | fuel + 1, file, io =>
    match getline file with
    | none => .ok (io, [])
    | some (line, rest) =>
      if line = end_header then .ok (io, rest)
      else
        match readHeaderLine line io with
        | .error e => .error e
        | .ok io2 => readHeaderLoop fuel rest io2

/-- The effect of the loop body on a list of lines, none of which ends the header. -/
def readHeaderLines : List Str → PlyBinaryIO → Except Exn PlyBinaryIO
  | [], io => .ok io
  | l :: ls, io =>
    match readHeaderLine l io with
    | .error e => .error e
    | .ok io2 => readHeaderLines ls io2

/-- The method `readHeader`: every iteration consumes at least one character, so
`file.length + 1` iterations always suffice. -/
def readHeader (io : PlyBinaryIO) (file : Str) : Except Exn ( PlyBinaryIO × Str) :=
  readHeaderLoop (file.length + 1) file io

/-- The `for` loop of `writeHeader` over `custom_properties_` with its `switch`. -/
def writeProperties : List Property → Str → Str
  | [], file => file
  | property :: ps, file =>
    writeProperties ps
      (match property.type with
       | .UCHAR => file ++ "property uchar ".toList ++ property.name ++ "\n".toList
       | .CHAR => file ++ "property char ".toList ++ property.name ++ "\n".toList
       | .SHORT => file ++ "property short ".toList ++ property.name ++ "\n".toList
       | .USHORT => file ++ "property ushort ".toList ++ property.name ++ "\n".toList
       | .INT => file ++ "property int ".toList ++ property.name ++ "\n".toList
       | .UINT => file ++ "property uint ".toList ++ property.name ++ "\n".toList
       | .FLOAT => file ++ "property float ".toList ++ property.name ++ "\n".toList
       | .DOUBLE => file ++ "property double ".toList ++ property.name ++ "\n".toList)

/-- The method `writeHeader`, appending to the stream `file`. -/
def writeHeader (io : PlyBinaryIO) (file : Str) : Str :=
  let file := file ++ "ply\n".toList
  let file := file ++ "format binary_little_endian 1.0\n".toList
  let file := file ++ "element vertex ".toList ++ decimal io.vertex_count_ ++ "\n".toList
  let file := writeProperties io.custom_properties_ file
  file ++ "end_header\n".toList

/-- The inner loop of `write` on one vertex with memory `mem`: for each property,
`file.write(vertex_ptr + property.offset, property.size)`. -/
def writeVertex : List Property → Str → Str → Except Exn Str
  | [], _, file => .ok file
  | property :: ps, mem, file =>
    if property.offset + property.size > mem.length then .error .outOfObject
    else writeVertex ps mem (file ++ (mem.drop property.offset).take property.size)

/-- The outer loop of `write` over the vertices. -/
def writeVertices (props : List Property) : List CustomVertex → Str → Except Exn Str
  | [], file => .ok file
  | v :: vs, file =>
    match writeVertex props v.bytes file with
    | .error e => .error e
    | .ok file2 => writeVertices props vs file2

/-- The method `write<CustomVertex>`: the new object state and the file's content. -/
def write (io : PlyBinaryIO) (vertices : List CustomVertex) : Except Exn ( PlyBinaryIO × Str) :=
  let io2 : PlyBinaryIO := ⟨vertices.length, io.custom_properties_⟩
  let file := writeHeader io2 []
  match writeVertices io2.custom_properties_ vertices file with
  | .error e => .error e
  | .ok file2 => .ok (io2, file2)

/-- Memory `mem` after `got` has been stored at `offset`. -/
def poke (mem : Str) (offset : Nat) (got : Str) : Str :=
  mem.take offset ++ got ++ mem.drop (offset + got.length)

/-- The inner loop of `read` on one vertex with memory `mem`: for each property,
`file.read(vertex_ptr + property.offset, property.size)`. -/
def readVertex : List Property → Str → Str → Except Exn (Str × Str)
  | [], mem, file => .ok (mem, file)
  | property :: ps, mem, file =>
    let (got, rest) := streamRead property.size file
    if property.offset + got.length > mem.length then .error .outOfObject
    else readVertex ps (poke mem property.offset got) rest

/-- The elements of the vector after `vertices.resize(n)` has returned: the first `n`
elements are kept, missing ones are value-initialised. -/
def resized (vertices : List CustomVertex) (n : Nat) : List CustomVertex :=
  vertices.take n ++ List.replicate (n - vertices.length) CustomVertex.zero

/-- The call `vertices.resize(n)`: it throws `std::length_error` when `n` exceeds
`max_size()`; otherwise the storage is taken to be available and the vector holds
`resized vertices n`. -/
def resize (vertices : List CustomVertex) (n : Nat) : Except Exn (List CustomVertex) :=
  if n > max_size sizeofCustomVertex then .error .lengthError
  else .ok (resized vertices n)

/-- The outer loop of `read` over the elements of the resized vector. -/
def readVertices (props : List Property) : List CustomVertex → Str →
    Except Exn (List CustomVertex)
  | [], _ => .ok []
  | vertex :: vs, file =>
    match readVertex props vertex.bytes file with
    | .error e => .error e
    | .ok (mem, rest) =>
      match readVertices props vs rest with
      | .error e => .error e
      | .ok vs2 => .ok (CustomVertex.ofBytes mem :: vs2)

/-- The method `read<CustomVertex>` on a file with content `file`; `vertices` is the
content of the caller's vector on entry. -/
def read (io : PlyBinaryIO) (vertices : List CustomVertex) (file : Str) :
    Except Exn ( PlyBinaryIO × List CustomVertex) :=
  match readHeader io file with
  | .error e => .error e
  | .ok (io2, rest) =>
    match resize vertices io2.vertex_count_ with
    | .error e => .error e
    | .ok resizedVertices =>
      match readVertices io2.custom_properties_ resizedVertices rest with
      | .error e => .error e
      | .ok vertices2 => .ok (io2, vertices2)

/-- The vertex `{x, y, z, r, g, b}` of `main`, the floats given by their IEEE-754 bit
patterns; the padding byte is zero. -/
def mkVertex (hostLE : Bool) (x y z r g b : Nat) : CustomVertex :=
  ⟨F32.ofBits hostLE x, F32.ofBits hostLE y, F32.ofBits hostLE z,
   Char.ofNat r, Char.ofNat g, Char.ofNat b, '\x00'⟩

/-- The vector `vertices` of `main`: `{0, 22, 1, 255, 0, 0}`, `{1, 33, 20, 0, 255, 0}`,
`{2, 44, 3, 0, 0, 255}` (0.0f = 0x00000000, 1.0f = 0x3F800000, 2.0f = 0x40000000,
3.0f = 0x40400000, 20.0f = 0x41A00000, 22.0f = 0x41B00000, 33.0f = 0x42040000,
44.0f = 0x42300000). -/
def mainVertices (hostLE : Bool) : List CustomVertex :=
  [mkVertex hostLE 0x00000000 0x41B00000 0x3F800000 255 0 0,
   mkVertex hostLE 0x3F800000 0x42040000 0x41A00000 0 255 0,
   mkVertex hostLE 0x40000000 0x42300000 0x40400000 0 0 255]

/-- The function `main` up to its output loop: the file written to `example.ply` and the
vector `readVertices`, empty before the call, obtained by reading it back with the same
object. -/
def main (hostLE : Bool) : Except Exn (Str × List CustomVertex) :=
  let ply := PlyBinaryIO.new
  match write ply (mainVertices hostLE) with
  | .error e => .error e
  | .ok (ply2, file) =>
    match read ply2 [] file with
    | .error e => .error e
    | .ok (_, readVertices) => .ok (file, readVertices)

end Ply

/-! ## Lines of a text, as the `readHeader` loops see them -/

/-- The lines that repeated `std::getline` calls deliver until the stream is exhausted,
one call per unit of fuel. -/
def getlines : Nat → Str → List Str
  | 0, _ => []
  | fuel + 1, file =>
    match getline file with
    | none => []
    | some (line, rest) => line :: getlines fuel rest

/-- All the lines of a text: every `std::getline` consumes at least one character, so
`file.length + 1` calls exhaust the stream. -/
def allLines (file : Str) : List Str := getlines (file.length + 1) file

/-- The lines that a `while (std::getline(file, line)) { if (line == "end_header") break;
... }` loop hands to its body, and the part of the stream left unread when it ends. -/
def headerLinesLoop : Nat → Str → List Str × Str
  | 0, file => ([], file)
  | fuel + 1, file =>
    match getline file with
    | none => ([], [])
    | some (line, rest) =>
      if line = end_header then ([], rest)
      else ((headerLinesLoop fuel rest).1.cons line, (headerLinesLoop fuel rest).2)

/-- The lines of a text before its first `end_header` line (all its lines when there is
none). -/
def headerLines (file : Str) : List Str := (headerLinesLoop (file.length + 1) file).1

/-- The part of a text after its first `end_header` line and the newline that ends it
(nothing when there is no such line). -/
def afterHeader (file : Str) : Str := (headerLinesLoop (file.length + 1) file).2

namespace Ply

/-- The properties that the loop body of `readHeader` leaves after a line: `x`, `y`, `z`,
followed by the line's own property when the line contains `property`, has at least
three tokens and its second token is a recognised type name. -/
def lineProperties (line : Str) : List Property :=
  if contains line "property".toList then
    if (tokenize line).length ≥ 3 then
      appendProperty xyzProperties ((tokenize line).getD 1 []) ((tokenize line).getD 2 []) 12
    else xyzProperties
  else xyzProperties

/-- The packing invariant from offset `off` on: each field sits at the sum of the widths
of the fields before it and its width is the width of its type. -/
def packedFrom : Nat → List Property → Bool
  | _, [] => true
  | off, p :: ps =>
    p.offset == off && p.size == sizeofType p.type && packedFrom (off + p.size) ps

/-- The packing invariant of a schema: the first field has offset 0. -/
def packed (ps : List Property) : Bool := packedFrom 0 ps

/-- The offsets of a schema, in order. -/
def offsets (ps : List Property) : List Nat := ps.map (fun p => p.offset)

end Ply

/-! ## `split` of `ply2.cpp` -/

namespace Ply2

/-- The first position at or after `pos` of a character of `delimiters`, when `rest` is
the part of the string that starts at `pos`. -/
def findFirstFrom (delimiters : Str) : Str → Nat → Option Nat
  | [], _ => none
  | c :: cs, pos => if c ∈ delimiters then some pos else findFirstFrom delimiters cs (pos + 1)

/-- The call `s.find_first_of(delimiters, start)`, `none` for `npos`. -/
def find_first_of (s delimiters : Str) (start : Nat) : Option Nat :=
  findFirstFrom delimiters (s.drop start) start

/-- The call `s.substr(start, n)`. -/
def substr (s : Str) (start n : Nat) : Str := (s.drop start).take n

/-- The `while` loop of `split`, one iteration per unit of fuel: the tokens found and
the value of `start` when it ends. -/
def splitLoop : Nat → Str → Str → Nat → List Str → List Str × Nat
  | 0, _, _, start, tokens => (tokens, start)
  | fuel + 1, s, delimiters, start, tokens =>
    match find_first_of s delimiters start with
    | none => (tokens, start)
    | some endPos =>
      splitLoop fuel s delimiters (endPos + 1)
        (if endPos ≠ start then tokens ++ [substr s start (endPos - start)] else tokens)

/-- The function `split`: every iteration moves `start` forward by at least one
position, so `s.length + 1` iterations always suffice. -/
def split (s delimiters : Str) : List Str :=
  let r := splitLoop (s.length + 1) s delimiters 0 []
  if r.2 < s.length then r.1 ++ [s.drop r.2] else r.1

end Ply2

/-- The maximal runs of characters outside `d` in a string, in order of occurrence;
`cur` is the run being read. -/
def runsAux (d : Str) : Str → Str → List Str
  | cur, [] => if cur = [] then [] else [cur]
  | cur, c :: cs =>
    if c ∈ d then
      if cur = [] then runsAux d [] cs else cur :: runsAux d [] cs
    else runsAux d (cur ++ [c]) cs

/-- The maximal runs of non-delimiter characters of `s`, for the delimiter set `d`. -/
def runs (d s : Str) : List Str := runsAux d [] s

namespace Ply

end Ply

/-! ## Lemmas on the library model -/

theorem getlineDelim_line (d : Char) (l r : Str) (h : d ∉ l) :
    getlineDelim d (l ++ d :: r) = some (l, r) := by
  induction l with
  | nil => simp [getlineDelim]
  | cons c cs ih =>
    have hc : c ≠ d := fun e => h (by simp [e])
    have hcs : d ∉ cs := fun e => h (by simp [e])
    simp [getlineDelim, hc, ih hcs]

theorem getlineDelim_last (d : Char) (l : Str) (h : d ∉ l) (hne : l ≠ []) :
    getlineDelim d l = some (l, []) := by
  induction l with
  | nil => exact absurd rfl hne
  | cons c cs ih =>
    have hc : c ≠ d := fun e => h (by simp [e])
    have hcs : d ∉ cs := fun e => h (by simp [e])
    cases cs with
    | nil => simp [getlineDelim, hc]
    | cons e es =>
      have h2 := ih hcs (by simp)
      rw [getlineDelim, if_neg hc, h2]

theorem getlineDelim_length (d : Char) (file l r : Str)
    (h : getlineDelim d file = some (l, r)) : r.length < file.length := by
  induction file generalizing l r with
  | nil => simp [getlineDelim] at h
  | cons c cs ih =>
    unfold getlineDelim at h
    split at h
    · cases h; simp
    · split at h
      · cases h; simp
      · next l2 r2 heq =>
        cases h
        have := ih l2 r heq
        simp; omega

theorem getlineDelim_not_mem (d : Char) (file l r : Str)
    (h : getlineDelim d file = some (l, r)) : d ∉ l := by
  induction file generalizing l r with
  | nil => simp [getlineDelim] at h
  | cons c cs ih =>
    unfold getlineDelim at h
    split at h
    · cases h; simp
    · next hc =>
      split at h
      · cases h; simpa using Ne.symm hc
      · next l2 r2 heq =>
        cases h
        have := ih l2 r heq
        simp [this, Ne.symm hc]

theorem getline_line (l r : Str) (h : '\n' ∉ l) : getline (l ++ '\n' :: r) = some (l, r) :=
  getlineDelim_line _ l r h

theorem getline_last (l : Str) (h : '\n' ∉ l) (hne : l ≠ []) : getline l = some (l, []) :=
  getlineDelim_last _ l h hne

theorem getline_length (file l r : Str) (h : getline file = some (l, r)) :
    r.length < file.length :=
  getlineDelim_length _ file l r h

theorem getline_not_mem (file l r : Str) (h : getline file = some (l, r)) : '\n' ∉ l :=
  getlineDelim_not_mem _ file l r h

theorem startsWith_append (p t : Str) : startsWith (p ++ t) p = true := by
  induction p with
  | nil => cases t <;> simp [startsWith]
  | cons c cs ih => simp [startsWith, ih]

theorem contains_of_startsWith (s pat : Str) (h : startsWith s pat = true) :
    contains s pat = true := by
  cases s with
  | nil => cases pat <;> simp_all [contains, find, startsWith]
  | cons c cs => simp [contains, find, h]

theorem contains_cons (c : Char) (cs pat : Str) :
    contains (c :: cs) pat = (startsWith (c :: cs) pat || contains cs pat) := by
  unfold contains
  rw [find]
  split <;> simp_all

theorem contains_head_not_mem (s : Str) (p : Char) (ps : Str) (h : p ∉ s) :
    contains s (p :: ps) = false := by
  induction s with
  | nil => simp [contains, find]
  | cons c cs ih =>
    have hc : c ≠ p := fun e => h (by simp [e])
    have hcs : p ∉ cs := fun e => h (by simp [e])
    rw [contains_cons, ih hcs]
    simp [startsWith, hc]

theorem find_last_of_not_mem (s : Str) (c : Char) (h : c ∉ s) : find_last_of s c = none := by
  induction s with
  | nil => rfl
  | cons x xs ih =>
    have hx : x ≠ c := fun e => h (by simp [e])
    have hxs : c ∉ xs := fun e => h (by simp [e])
    simp [find_last_of, ih hxs, hx]

theorem find_last_of_append (a d : Str) (c : Char) (h : c ∉ d) :
    find_last_of (a ++ c :: d) c = some a.length := by
  induction a with
  | nil => simp [find_last_of, find_last_of_not_mem d c h]
  | cons x xs ih => simp [find_last_of, ih]

theorem substrAfterLast_append (a d : Str) (c : Char) (h : c ∉ d) :
    substrAfterLast (a ++ c :: d) c = d := by
  simp [substrAfterLast, find_last_of_append a d c h]

/-! ## Decimal output and `stoi` -/

theorem digitChar_isDigit (d : Nat) (h : d < 10) : (Nat.digitChar d).isDigit = true := by
  interval_cases d <;> decide

theorem digitVal_digitChar (d : Nat) (h : d < 10) : digitVal (Nat.digitChar d) = d := by
  interval_cases d <;> decide

theorem toDigitsCore_all (fuel n : Nat) (ds : Str) (P : Char → Prop)
    (hP : ∀ d, d < 10 → P (Nat.digitChar d)) (hds : ∀ c ∈ ds, P c) :
    ∀ c ∈ Nat.toDigitsCore 10 fuel n ds, P c := by
  induction fuel generalizing n ds with
  | zero => simpa [Nat.toDigitsCore] using hds
  | succ f ih =>
    have hd : P (Nat.digitChar (n % 10)) := hP _ (Nat.mod_lt _ (by decide))
    have hcons : ∀ c ∈ Nat.digitChar (n % 10) :: ds, P c := by
      intro c hc
      rcases List.mem_cons.mp hc with rfl | hc
      · exact hd
      · exact hds c hc
    by_cases h0 : n / 10 = 0
    · simpa only [Nat.toDigitsCore, h0, if_true] using hcons
    · simpa only [Nat.toDigitsCore, h0, if_false] using ih _ _ hcons

theorem toDigitsCore_ne_nil (fuel n : Nat) (ds : Str) (h : 0 < fuel) :
    Nat.toDigitsCore 10 fuel n ds ≠ [] := by
  induction fuel generalizing n ds with
  | zero => omega
  | succ f ih =>
    by_cases h0 : n / 10 = 0
    · simp only [Nat.toDigitsCore, h0, if_true]
      simp
    · simp only [Nat.toDigitsCore, h0, if_false]
      cases f with
      | zero => simp [Nat.toDigitsCore]
      | succ g => exact ih _ _ (by omega)

theorem foldl_toDigitsCore (fuel n : Nat) (ds : Str) (h : n < fuel) :
    (Nat.toDigitsCore 10 fuel n ds).foldl (fun a c => a * 10 + digitVal c) 0
      = ds.foldl (fun a c => a * 10 + digitVal c) n := by
  induction fuel generalizing n ds with
  | zero => omega
  | succ f ih =>
    have hv := digitVal_digitChar (n % 10) (Nat.mod_lt _ (by decide))
    by_cases h0 : n / 10 = 0
    · have : n % 10 = n := by omega
      simp only [Nat.toDigitsCore, h0, if_true, List.foldl, hv, Nat.zero_mul, Nat.zero_add]
      rw [this]
    · simp only [Nat.toDigitsCore, h0, if_false]
      rw [ih (n / 10) _ (by omega)]
      simp only [List.foldl, hv]
      congr 1
      omega

theorem decimal_all_digits (n : Nat) : ∀ c ∈ decimal n, c.isDigit = true :=
  toDigitsCore_all _ _ _ _ digitChar_isDigit (by simp)

theorem decimal_ne_nil (n : Nat) : decimal n ≠ [] :=
  toDigitsCore_ne_nil _ _ _ (by omega)

theorem digitsVal_decimal (n : Nat) : digitsVal (decimal n) = n := by
  unfold digitsVal decimal Nat.toDigits
  rw [foldl_toDigitsCore _ _ _ (by omega)]
  rfl

theorem decimal_not_mem (n : Nat) (c : Char) (h : c.isDigit = false) : c ∉ decimal n := by
  intro hc
  have := decimal_all_digits n c hc
  simp [h] at this

theorem takeWhile_all (p : Char → Bool) (l : Str) (h : ∀ c ∈ l, p c = true) :
    l.takeWhile p = l := by
  induction l with
  | nil => rfl
  | cons c cs ih =>
    have hc : p c = true := h c (by simp)
    simp [List.takeWhile, hc, ih (fun d hd => h d (by simp [hd]))]

/-- The digits that `stoi` converts when given a non-empty run of decimal digits. -/
theorem stoi_digits (ds : Str) (hne : ds ≠ []) (hall : ∀ c ∈ ds, c.isDigit = true) :
    stoi ds = if INT_MAX < (digitsVal ds : Int) then .error .outOfRange
              else .ok (digitsVal ds : Int) := by
  obtain ⟨c, cs, rfl⟩ : ∃ c cs, ds = c :: cs := by
    cases ds with
    | nil => exact absurd rfl hne
    | cons c cs => exact ⟨c, cs, rfl⟩
  have hc : c.isDigit = true := hall c (by simp)
  have hsp : isspace c = false := by
    cases hs : isspace c with
    | false => rfl
    | true =>
      simp only [isspace, Bool.or_eq_true, decide_eq_true_eq] at hs
      rcases hs with ((((h | h) | h) | h) | h) | h <;> (rw [h] at hc; exact absurd hc (by decide))
  have hm : c ≠ '-' := by rintro rfl; exact absurd hc (by decide)
  have hp : c ≠ '+' := by rintro rfl; exact absurd hc (by decide)
  have htw : (c :: cs).takeWhile Char.isDigit = c :: cs := takeWhile_all _ _ hall
  have hnn : ¬ ((digitsVal (c :: cs) : Int) < INT_MIN) := by
    have : (0 : Int) ≤ (digitsVal (c :: cs) : Int) := Int.ofNat_nonneg _
    unfold INT_MIN
    omega
  unfold stoi
  simp only [List.dropWhile, hsp]
  simp [hm, hp, htw, hnn]

theorem stoi_decimal (n : Nat) :
    stoi (decimal n) = if 2147483647 < n then .error .outOfRange else .ok (n : Int) := by
  rw [stoi_digits _ (decimal_ne_nil n) (decimal_all_digits n), digitsVal_decimal]
  unfold INT_MAX
  by_cases h : 2147483647 < n
  · have h2 : (2147483647 : Int) < (n : Int) := by omega
    simp [h, h2]
  · have h2 : ¬ (2147483647 : Int) < (n : Int) := by omega
    simp [h, h2]

theorem toSizeT_natCast (n : Nat) (h : n < 18446744073709551616) : toSizeT (n : Int) = n := by
  unfold toSizeT
  omega

namespace Ply2

/-! ## Lemmas on `src/ply2.cpp` -/

theorem isLittleEndian_eq (hostLE : Bool) : isLittleEndian hostLE = hostLE := by
  cases hostLE <;> decide

theorem readHeaderLoop_fuel (f1 f2 : Nat) (file : Str) (st : Nat × Bool)
    (h1 : file.length < f1) (h2 : file.length < f2) :
    readHeaderLoop f1 file st = readHeaderLoop f2 file st := by
  induction f1 generalizing f2 file st with
  | zero => omega
  | succ g ih =>
    cases f2 with
    | zero => omega
    | succ k =>
      unfold readHeaderLoop
      cases hg : getline file with
      | none => rfl
      | some p =>
        obtain ⟨line, rest⟩ := p
        have hlen := getline_length file line rest hg
        simp only []
        split
        · rfl
        · cases readHeaderLine line st with
          | error e => rfl
          | ok st2 => exact ih k rest st2 (by omega) (by omega)

theorem readHeaderLoop_line (fuel : Nat) (l rest : Str) (st : Nat × Bool)
    (hnl : '\n' ∉ l) (hf : (l ++ '\n' :: rest).length < fuel) :
    readHeaderLoop fuel (l ++ '\n' :: rest) st =
      if l = end_header then .ok (st, rest)
      else
        match readHeaderLine l st with
        | .error e => .error e
        | .ok st2 => readHeaderLoop (rest.length + 1) rest st2 := by
  cases fuel with
  | zero => omega
  | succ k =>
    rw [readHeaderLoop, getline_line l rest hnl]
    simp only []
    split
    · rfl
    · cases readHeaderLine l st with
      | error e => rfl
      | ok st2 =>
        simp only []
        apply readHeaderLoop_fuel
        · simp at hf; omega
        · omega

theorem readHeaderLoop_joinLines (ls : List Str) (rest : Str) (st : Nat × Bool) (fuel : Nat)
    (hls : ∀ l ∈ ls, '\n' ∉ l ∧ l ≠ end_header)
    (hf : (joinLines ls rest).length < fuel) :
    readHeaderLoop fuel (joinLines ls rest) st =
      match readHeaderLines ls st with
      | .error e => .error e
      | .ok st2 => readHeaderLoop (rest.length + 1) rest st2 := by
  induction ls generalizing st fuel with
  | nil =>
    simp only [joinLines, readHeaderLines]
    exact readHeaderLoop_fuel _ _ _ _ hf (by omega)
  | cons l ls ih =>
    have hl := hls l (by simp)
    simp only [joinLines] at hf ⊢
    rw [readHeaderLoop_line fuel l _ st hl.1 hf, if_neg hl.2]
    simp only [readHeaderLines]
    cases readHeaderLine l st with
    | error e => rfl
    | ok st2 =>
      simp only []
      exact ih st2 _ (fun m hm => hls m (by simp [hm])) (by omega)

theorem readHeaderLoop_end (fuel : Nat) (rest : Str) (st : Nat × Bool)
    (hf : (end_header ++ '\n' :: rest).length < fuel) :
    readHeaderLoop fuel (end_header ++ '\n' :: rest) st = .ok (st, rest) := by
  rw [readHeaderLoop_line fuel end_header rest st (by decide) hf, if_pos rfl]

theorem readHeaderLine_neutral (line : Str) (st : Nat × Bool)
    (h1 : contains line "element vertex".toList = false)
    (h2 : contains line "format".toList = false) :
    readHeaderLine line st = .ok st := by
  unfold readHeaderLine
  rw [h1, h2]
  rfl

theorem readHeaderLine_format (le : Bool) (st : Nat × Bool) :
    readHeaderLine (formatLine le) st = .ok (st.1, le) := by
  unfold readHeaderLine
  cases le
  · have h1 : contains (formatLine false) "element vertex".toList = false := by decide
    have h2 : contains (formatLine false) "format".toList = true := by decide
    have h3 : contains (formatLine false) "binary_big_endian".toList = true := by decide
    rw [h1, h2, h3]
    rfl
  · have h1 : contains (formatLine true) "element vertex".toList = false := by decide
    have h2 : contains (formatLine true) "format".toList = true := by decide
    have h3 : contains (formatLine true) "binary_big_endian".toList = false := by decide
    have h4 : contains (formatLine true) "binary_little_endian".toList = true := by decide
    rw [h1, h2, h3, h4]
    rfl

theorem readHeaderLine_element (n : Nat) (st : Nat × Bool) :
    readHeaderLine (elementLine n) st =
      if 2147483647 < n then .error .outOfRange else .ok (n, st.2) := by
  have hshape : elementLine n = "element vertex".toList ++ ' ' :: decimal n := rfl
  have h1 : contains (elementLine n) "element vertex".toList = true := by
    apply contains_of_startsWith
    rw [hshape]
    exact startsWith_append _ _
  have h2 : contains (elementLine n) "format".toList = false := by
    apply contains_head_not_mem
    unfold elementLine
    rw [List.mem_append]
    rintro (h | h)
    · revert h; decide
    · exact decimal_not_mem n 'f' (by decide) h
  have h3 : substrAfterLast (elementLine n) ' ' = decimal n := by
    rw [hshape]
    exact substrAfterLast_append _ _ _ (decimal_not_mem n ' ' (by decide))
  unfold readHeaderLine
  rw [h1, h2, h3, stoi_decimal]
  by_cases h : 2147483647 < n
  · rw [if_pos h, if_pos h]
    rfl
  · rw [if_neg h, if_neg h]
    show Except.ok (toSizeT (n : Int), st.2) = _
    rw [toSizeT_natCast n (by omega)]

end Ply2

theorem joinLines_append (a b : List Str) (rest : Str) :
    joinLines (a ++ b) rest = joinLines a (joinLines b rest) := by
  induction a with
  | nil => rfl
  | cons l ls ih => simp [joinLines, ih]

theorem joinLines_append_rest (ls : List Str) (r : Str) :
    joinLines ls [] ++ r = joinLines ls r := by
  induction ls with
  | nil => rfl
  | cons l ls ih => simp [joinLines, ih]

theorem elementLine_not_newline (n : Nat) : '\n' ∉ elementLine n := by
  unfold elementLine
  rw [List.mem_append]
  rintro (h | h)
  · revert h; decide
  · exact decimal_not_mem n '\n' (by decide) h

theorem elementLine_ne_end_header (n : Nat) : elementLine n ≠ end_header := by
  intro h
  have h2 := congrArg (fun l => l.getD 1 'x') h
  have h3 : (elementLine n).getD 1 'x' = 'l' := rfl
  have h4 : end_header.getD 1 'x' = 'n' := rfl
  simp only [h3, h4] at h2
  exact absurd h2 (by decide)

namespace Ply2

theorem printMembersImpl_eq (ms : List Member) (file : Str) :
    printMembersImpl ms file =
      file ++ joinLines (ms.map (fun m => propertyLine m.typeName m.name)) [] := by
  induction ms generalizing file with
  | nil => simp [printMembersImpl, joinLines]
  | cons m ms ih =>
    rw [printMembersImpl, ih]
    simp [joinLines, propertyLine, List.append_assoc]

theorem writeHeader_eq (hostLE : Bool) (io : PlyBinaryIO) (members : List Member) (file : Str) :
    writeHeader hostLE io members file =
      file ++ joinLines (["ply".toList, formatLine hostLE, elementLine io.vertex_count_]
        ++ members.map (fun m => propertyLine m.typeName m.name) ++ [end_header]) [] := by
  simp only [writeHeader, printMembersImpl_eq, isLittleEndian_eq]
  cases hostLE <;>
    simp [joinLines, joinLines_append, formatLine, elementLine, end_header, List.append_assoc,
      joinLines_append_rest]

theorem writeVertices_eq (vs : List CustomVertex) (file : Str) :
    writeVertices vs file = file ++ writeVertices vs [] := by
  induction vs generalizing file with
  | nil => simp [writeVertices]
  | cons v vs ih =>
    rw [writeVertices, ih, writeVertices, ih ([] ++ v.bytes)]
    simp [List.append_assoc]

theorem writeVertices_cons (v : CustomVertex) (vs : List CustomVertex) :
    writeVertices (v :: vs) [] = v.bytes ++ writeVertices vs [] := by
  rw [writeVertices, writeVertices_eq]
  rfl

theorem readVertex_bytes (differ : Bool) (old v : CustomVertex) (rest : Str) :
    readVertex differ old (v.bytes ++ rest) = (v, rest) := by
  obtain ⟨⟨x0, x1, x2, x3⟩, ⟨y0, y1, y2, y3⟩, ⟨z0, z1, z2, z3⟩, r, g, b⟩ := v
  obtain ⟨⟨a0, a1, a2, a3⟩, ⟨b0, b1, b2, b3⟩, ⟨c0, c1, c2, c3⟩, r2, g2, b4⟩ := old
  cases differ <;> rfl

theorem readVertices_writeVertices (differ : Bool) (vs old : List CustomVertex) (rest : Str)
    (h : old.length = vs.length) :
    readVertices differ old (writeVertices vs [] ++ rest) = vs := by
  induction vs generalizing old with
  | nil =>
    cases old with
    | nil => rfl
    | cons o os => simp at h
  | cons v vs ih =>
    cases old with
    | nil => simp at h
    | cons o os =>
      rw [writeVertices_cons, List.append_assoc, readVertices, readVertex_bytes]
      simp only []
      rw [ih os (by simpa using h)]

theorem resized_length (old : List CustomVertex) (n : Nat) : (resized old n).length = n := by
  simp only [resized, List.length_append, List.length_take, List.length_replicate]
  omega

theorem resize_ok (old : List CustomVertex) (n : Nat) (h : n ≤ max_size sizeofCustomVertex) :
    resize old n = .ok (resized old n) := by
  unfold resize
  rw [if_neg (by omega)]

theorem resize_error (old : List CustomVertex) (n : Nat)
    (h : max_size sizeofCustomVertex < n) : resize old n = .error .lengthError := by
  unfold resize
  rw [if_pos h]

theorem passedOver_iff (l : Str) :
    passedOver l = true ↔ ('\n' ∉ l ∧ l ≠ end_header ∧
      contains l "element vertex".toList = false ∧ contains l "format".toList = false) := by
  unfold passedOver
  rw [Bool.and_eq_true, Bool.and_eq_true, Bool.and_eq_true]
  rw [Bool.not_eq_true', Bool.not_eq_true', Bool.not_eq_true', bne_iff_ne, List.elem_eq_mem,
    decide_eq_false_iff_not]
  tauto

theorem readHeaderLines_passedOver (ps : List Str) (st : Nat × Bool)
    (h : ∀ l ∈ ps, passedOver l = true) : readHeaderLines ps st = .ok st := by
  induction ps with
  | nil => rfl
  | cons l ls ih =>
    have hl := (passedOver_iff l).mp (h l (by simp))
    rw [readHeaderLines, readHeaderLine_neutral l st hl.2.2.1 hl.2.2.2]
    exact ih (fun m hm => h m (by simp [hm]))

theorem readHeaderLines_header (hostLE : Bool) (n : Nat) (ps : List Str) (st : Nat × Bool)
    (h : ∀ l ∈ ps, passedOver l = true) :
    readHeaderLines (["ply".toList, formatLine hostLE, elementLine n] ++ ps) st
      = if 2147483647 < n then .error .outOfRange else .ok (n, hostLE) := by
  show readHeaderLines ("ply".toList :: formatLine hostLE :: elementLine n :: ps) st = _
  rw [readHeaderLines, readHeaderLine_neutral _ _ (by decide) (by decide)]
  simp only []
  rw [readHeaderLines, readHeaderLine_format]
  simp only []
  rw [readHeaderLines, readHeaderLine_element]
  by_cases hn : 2147483647 < n
  · simp only [if_pos hn]
  · simp only [if_neg hn]
    exact readHeaderLines_passedOver ps _ h

theorem header_lines_ok (hostLE : Bool) (n : Nat) (ps : List Str)
    (h : ∀ l ∈ ps, passedOver l = true) :
    ∀ l ∈ ["ply".toList, formatLine hostLE, elementLine n] ++ ps,
      '\n' ∉ l ∧ l ≠ end_header := by
  intro l hl
  simp only [List.cons_append, List.nil_append, List.mem_cons] at hl
  rcases hl with rfl | rfl | rfl | hl
  · decide
  · cases hostLE <;> decide
  · exact ⟨elementLine_not_newline n, elementLine_ne_end_header n⟩
  · have := (passedOver_iff l).mp (h l hl)
    exact ⟨this.1, this.2.1⟩

/-- Reading back a header written by `writeHeader`, whatever follows it in the file. -/
theorem readHeader_writeHeader_eq (hostLE : Bool) (io : PlyBinaryIO) (n : Nat)
    (members : List Member) (payload : Str)
    (h : ∀ m ∈ members, passedOver (propertyLine m.typeName m.name) = true) :
    readHeader io (writeHeader hostLE ⟨n⟩ members [] ++ payload) =
      if 2147483647 < n then .error .outOfRange else .ok (⟨n⟩, hostLE, payload) := by
  have hps : ∀ l ∈ members.map (fun m => propertyLine m.typeName m.name),
      passedOver l = true := by
    intro l hl
    obtain ⟨m, hm, rfl⟩ := List.mem_map.mp hl
    exact h m hm
  have e : joinLines [end_header] payload = end_header ++ '\n' :: payload := rfl
  unfold readHeader
  rw [writeHeader_eq, List.nil_append, joinLines_append_rest, joinLines_append]
  dsimp only
  rw [readHeaderLoop_joinLines _ _ _ _ (header_lines_ok hostLE n _ hps) (by omega),
    readHeaderLines_header hostLE n _ _ hps]
  by_cases hn : 2147483647 < n
  · simp only [if_pos hn]
  · simp only [if_neg hn]
    rw [e, readHeaderLoop_end _ _ _ (by omega)]

theorem getMembers_passedOver :
    ∀ m ∈ CustomVertex.getMembers, passedOver (propertyLine m.typeName m.name) = true := by
  decide

theorem read_write_eq (hostLE : Bool) (io io2 : PlyBinaryIO) (vs old : List CustomVertex) :
    read hostLE io2 old (write hostLE io vs).2 =
      if 2147483647 < vs.length then .error .outOfRange else .ok (⟨vs.length⟩, vs) := by
  have hw : (write hostLE io vs).2 =
      writeHeader hostLE ⟨vs.length⟩ CustomVertex.getMembers [] ++ writeVertices vs [] := by
    unfold write
    simp only []
    rw [writeVertices_eq]
  unfold read
  rw [hw, readHeader_writeHeader_eq _ _ _ _ _ getMembers_passedOver]
  by_cases h : 2147483647 < vs.length
  · simp only [if_pos h]
  · have hmax : vs.length ≤ max_size sizeofCustomVertex :=
      Nat.le_trans (Nat.le_of_not_lt h) (by decide)
    simp only [if_neg h, isLittleEndian_eq, bne_self_eq_false]
    rw [resize_ok old vs.length hmax]
    simp only []
    have := readVertices_writeVertices false vs (resized old vs.length) []
      (resized_length old vs.length)
    rw [List.append_nil] at this
    rw [this]

end Ply2

namespace Ply2

end Ply2

theorem nthLine_one_joinLines (a b : Str) (ls : List Str) (r : Str) (ha : '\n' ∉ a)
    (hb : '\n' ∉ b) : nthLine 1 (joinLines (a :: b :: ls) r) = some b := by
  simp only [joinLines, nthLine]
  rw [getline_line a _ ha]
  simp only []
  rw [getline_line b _ hb]
  rfl

theorem formatLine_not_newline (le : Bool) : '\n' ∉ formatLine le := by
  cases le <;> decide

namespace Ply2

theorem swapEndian_eq_reverse (v : Str) : swapEndian v = v.reverse := by
  apply List.ext_getElem
  · simp [swapEndian]
  · intro i h1 h2
    have hi : i < v.length := by simpa using h2
    have hj : v.length - 1 - i < v.length := by omega
    simp only [swapEndian, List.getElem_map, List.getElem_range, List.getElem_reverse]
    rw [List.getD_eq_getElem _ _ hj]

theorem swapEndian_length (v : Str) : (swapEndian v).length = v.length := by
  simp [swapEndian]

/-- The calls of `swapEndian<float>` in `read` have no effect on what is stored. -/
theorem readVertices_differ (vertices : List CustomVertex) (file : Str) :
    readVertices true vertices file = readVertices false vertices file := by
  induction vertices generalizing file with
  | nil => rfl
  | cons v vs ih =>
    simp only [readVertices, readVertex]
    rw [ih]
    rfl

end Ply2

namespace Ply

theorem writeProperties_eq (ps : List Property) (file : Str) :
    writeProperties ps file =
      file ++ joinLines (ps.map (fun p => propertyLine (TypeInfo.name p.type) p.name)) [] := by
  induction ps generalizing file with
  | nil => simp [writeProperties, joinLines]
  | cons p ps ih =>
    rw [writeProperties, ih]
    cases hp : p.type <;>
      simp [joinLines, propertyLine, TypeInfo.name, hp, List.append_assoc]

theorem ply_writeHeader_eq (io : PlyBinaryIO) (file : Str) :
    writeHeader io file =
      file ++ joinLines (["ply".toList, formatLine true, elementLine io.vertex_count_]
        ++ io.custom_properties_.map (fun p => propertyLine (TypeInfo.name p.type) p.name)
        ++ [end_header]) [] := by
  simp only [writeHeader, writeProperties_eq]
  simp [joinLines, joinLines_append, formatLine, elementLine, end_header, List.append_assoc,
    joinLines_append_rest]

end Ply

/-! ## The `readHeader` loop of `ply.cpp` -/

namespace Ply

theorem ply_readHeaderLoop_fuel (f1 f2 : Nat) (file : Str) (io : PlyBinaryIO)
    (h1 : file.length < f1) (h2 : file.length < f2) :
    readHeaderLoop f1 file io = readHeaderLoop f2 file io := by
  induction f1 generalizing f2 file io with
  | zero => omega
  | succ g ih =>
    cases f2 with
    | zero => omega
    | succ k =>
      unfold readHeaderLoop
      cases hg : getline file with
      | none => rfl
      | some p =>
        obtain ⟨line, rest⟩ := p
        have hlen := getline_length file line rest hg
        simp only []
        split
        · rfl
        · cases readHeaderLine line io with
          | error e => rfl
          | ok io2 => exact ih k rest io2 (by omega) (by omega)

theorem ply_readHeaderLoop_line (fuel : Nat) (l rest : Str) (io : PlyBinaryIO)
    (hnl : '\n' ∉ l) (hf : (l ++ '\n' :: rest).length < fuel) :
    readHeaderLoop fuel (l ++ '\n' :: rest) io =
      if l = end_header then .ok (io, rest)
      else
        match readHeaderLine l io with
        | .error e => .error e
        | .ok io2 => readHeaderLoop (rest.length + 1) rest io2 := by
  cases fuel with
  | zero => omega
  | succ k =>
    rw [readHeaderLoop, getline_line l rest hnl]
    simp only []
    split
    · rfl
    · cases readHeaderLine l io with
      | error e => rfl
      | ok io2 =>
        simp only []
        apply ply_readHeaderLoop_fuel
        · simp at hf; omega
        · omega

theorem ply_readHeaderLoop_joinLines (ls : List Str) (rest : Str) (io : PlyBinaryIO)
    (fuel : Nat) (hls : ∀ l ∈ ls, '\n' ∉ l ∧ l ≠ end_header)
    (hf : (joinLines ls rest).length < fuel) :
    readHeaderLoop fuel (joinLines ls rest) io =
      match readHeaderLines ls io with
      | .error e => .error e
      | .ok io2 => readHeaderLoop (rest.length + 1) rest io2 := by
  induction ls generalizing io fuel with
  | nil =>
    simp only [joinLines, readHeaderLines]
    exact ply_readHeaderLoop_fuel _ _ _ _ hf (by omega)
  | cons l ls ih =>
    have hl := hls l (by simp)
    simp only [joinLines] at hf ⊢
    rw [ply_readHeaderLoop_line fuel l _ io hl.1 hf, if_neg hl.2]
    simp only [readHeaderLines]
    cases readHeaderLine l io with
    | error e => rfl
    | ok io2 =>
      simp only []
      exact ih io2 _ (fun m hm => hls m (by simp [hm])) (by omega)

theorem ply_readHeaderLoop_end (fuel : Nat) (rest : Str) (io : PlyBinaryIO)
    (hf : (end_header ++ '\n' :: rest).length < fuel) :
    readHeaderLoop fuel (end_header ++ '\n' :: rest) io = .ok (io, rest) := by
  rw [ply_readHeaderLoop_line fuel end_header rest io (by decide) hf, if_pos rfl]

/-- The loop of `readHeader` is the loop body folded over the lines before
`end_header`. -/
theorem ply_readHeaderLoop_lines (fuel : Nat) (file : Str) (io : PlyBinaryIO) :
    readHeaderLoop fuel file io =
      match readHeaderLines (headerLinesLoop fuel file).1 io with
      | .error e => .error e
      | .ok io2 => .ok (io2, (headerLinesLoop fuel file).2) := by
  induction fuel generalizing file io with
  | zero => rfl
  | succ k ih =>
    unfold readHeaderLoop headerLinesLoop
    cases hg : getline file with
    | none => rfl
    | some p =>
      obtain ⟨line, rest⟩ := p
      simp only []
      by_cases he : line = end_header
      · simp only [if_pos he, readHeaderLines]
      · simp only [if_neg he, List.cons, readHeaderLines]
        cases readHeaderLine line io with
        | error e => rfl
        | ok io2 => exact ih rest io2

end Ply

namespace Ply2

/-- The loop of `readHeader` is the loop body folded over the lines before
`end_header`. -/
theorem readHeaderLoop_lines (fuel : Nat) (file : Str) (st : Nat × Bool) :
    readHeaderLoop fuel file st =
      match readHeaderLines (headerLinesLoop fuel file).1 st with
      | .error e => .error e
      | .ok st2 => .ok (st2, (headerLinesLoop fuel file).2) := by
  induction fuel generalizing file st with
  | zero => rfl
  | succ k ih =>
    unfold readHeaderLoop headerLinesLoop
    cases hg : getline file with
    | none => rfl
    | some p =>
      obtain ⟨line, rest⟩ := p
      simp only []
      by_cases he : line = end_header
      · simp only [if_pos he, readHeaderLines]
      · simp only [if_neg he, List.cons, readHeaderLines]
        cases readHeaderLine line st with
        | error e => rfl
        | ok st2 => exact ih rest st2

end Ply2

/-! ## Lines of a text -/

theorem headerLinesLoop_no_end (fuel : Nat) (file : Str)
    (h : end_header ∉ getlines fuel file) (hf : file.length < fuel) :
    headerLinesLoop fuel file = (getlines fuel file, []) := by
  induction fuel generalizing file with
  | zero => omega
  | succ k ih =>
    unfold headerLinesLoop
    unfold getlines at h
    unfold getlines
    cases hg : getline file with
    | none => rfl
    | some p =>
      obtain ⟨line, rest⟩ := p
      rw [hg] at h
      simp only [List.mem_cons, not_or] at h
      have hlen := getline_length file line rest hg
      simp only []
      rw [if_neg (Ne.symm h.1), ih rest h.2 (by omega)]

theorem headerLines_no_end (file : Str) (h : end_header ∉ allLines file) :
    headerLines file = allLines file ∧ afterHeader file = [] := by
  unfold headerLines afterHeader
  rw [headerLinesLoop_no_end _ file h (by omega)]
  exact ⟨rfl, rfl⟩

theorem headerLinesLoop_wf (fuel : Nat) (file : Str) :
    ∀ l ∈ (headerLinesLoop fuel file).1, '\n' ∉ l ∧ l ≠ end_header := by
  induction fuel generalizing file with
  | zero => simp [headerLinesLoop]
  | succ k ih =>
    unfold headerLinesLoop
    cases hg : getline file with
    | none => simp
    | some p =>
      obtain ⟨line, rest⟩ := p
      simp only []
      by_cases he : line = end_header
      · simp [if_pos he]
      · simp only [if_neg he, List.cons, List.mem_cons]
        rintro l (rfl | hl)
        · exact ⟨getline_not_mem file l rest hg, he⟩
        · exact ih rest l hl

namespace Ply2

/-! ## The loop body of `readHeader` of `ply2.cpp` over several lines -/

theorem readHeaderLines_append (a b : List Str) (st : Nat × Bool) :
    readHeaderLines (a ++ b) st =
      match readHeaderLines a st with
      | .error e => .error e
      | .ok st2 => readHeaderLines b st2 := by
  induction a generalizing st with
  | nil => rfl
  | cons l ls ih =>
    simp only [List.cons_append, readHeaderLines]
    cases readHeaderLine l st with
    | error e => rfl
    | ok st2 => exact ih st2

theorem readHeaderLine_no_element (line : Str) (st : Nat × Bool)
    (h : contains line "element vertex".toList = false) :
    ∃ le, readHeaderLine line st = .ok (st.1, le) := by
  unfold readHeaderLine
  rw [h]
  exact ⟨_, rfl⟩

theorem readHeaderLines_no_element (ls : List Str) (st : Nat × Bool)
    (h : ∀ l ∈ ls, contains l "element vertex".toList = false) :
    ∃ le, readHeaderLines ls st = .ok (st.1, le) := by
  induction ls generalizing st with
  | nil => exact ⟨st.2, rfl⟩
  | cons l ls ih =>
    obtain ⟨le, hle⟩ := readHeaderLine_no_element l st (h l (by simp))
    obtain ⟨le2, hle2⟩ := ih (st.1, le) (fun m hm => h m (by simp [hm]))
    exact ⟨le2, by rw [readHeaderLines, hle]; exact hle2⟩

end Ply2

namespace Ply

/-! ## The loop body of `readHeader` of `ply.cpp` -/

theorem ply_readHeaderLine_eq (line : Str) (io : PlyBinaryIO) :
    readHeaderLine line io =
      match (if contains line "element vertex".toList then
              (stoi (substrAfterLast line ' ')).map toSizeT
             else .ok io.vertex_count_) with
      | .error e => .error e
      | .ok count => .ok ⟨count, lineProperties line⟩ := by
  unfold readHeaderLine lineProperties
  by_cases hp : contains line "property".toList = true
  · by_cases ht : (tokenize line).length ≥ 3
    · simp only [if_pos hp, if_pos ht]
      split_ifs <;> first
        | rfl
        | (cases stoi (substrAfterLast line ' ') <;> rfl)
    · simp only [if_pos hp, if_neg ht]
      split_ifs <;> first
        | rfl
        | (cases stoi (substrAfterLast line ' ') <;> rfl)
  · simp only [if_neg hp]
    split_ifs <;> first
      | rfl
      | (cases stoi (substrAfterLast line ' ') <;> rfl)

theorem ply_readHeaderLine_no_element (line : Str) (io : PlyBinaryIO)
    (h : contains line "element vertex".toList = false) :
    readHeaderLine line io = .ok ⟨io.vertex_count_, lineProperties line⟩ := by
  rw [ply_readHeaderLine_eq, h]
  rfl

theorem ply_readHeaderLine_props (line : Str) (io io2 : PlyBinaryIO)
    (h : readHeaderLine line io = .ok io2) :
    io2.custom_properties_ = lineProperties line := by
  rw [ply_readHeaderLine_eq] at h
  split at h
  · cases h
  · cases h; rfl

/-- The loop body looks at the object's vertex count only. -/
theorem ply_readHeaderLine_count_only (line : Str) (c : Nat) (p1 p2 : List Property) :
    readHeaderLine line ⟨c, p1⟩ = readHeaderLine line ⟨c, p2⟩ := by
  rw [ply_readHeaderLine_eq, ply_readHeaderLine_eq]

theorem ply_readHeaderLines_append (a b : List Str) (io : PlyBinaryIO) :
    readHeaderLines (a ++ b) io =
      match readHeaderLines a io with
      | .error e => .error e
      | .ok io2 => readHeaderLines b io2 := by
  induction a generalizing io with
  | nil => rfl
  | cons l ls ih =>
    simp only [List.cons_append, readHeaderLines]
    cases readHeaderLine l io with
    | error e => rfl
    | ok io2 => exact ih io2

theorem ply_readHeaderLines_no_element (ls : List Str) (io : PlyBinaryIO)
    (h : ∀ l ∈ ls, contains l "element vertex".toList = false) :
    ∃ props, readHeaderLines ls io = .ok ⟨io.vertex_count_, props⟩ := by
  induction ls generalizing io with
  | nil => exact ⟨io.custom_properties_, rfl⟩
  | cons l ls ih =>
    obtain ⟨props, hp⟩ := ih ⟨io.vertex_count_, lineProperties l⟩
      (fun m hm => h m (by simp [hm]))
    exact ⟨props, by
      rw [readHeaderLines, ply_readHeaderLine_no_element l io (h l (by simp))]
      exact hp⟩

end Ply

/-! ## Header lines of a text given line by line -/

theorem headerLinesLoop_fuel (f1 f2 : Nat) (file : Str)
    (h1 : file.length < f1) (h2 : file.length < f2) :
    headerLinesLoop f1 file = headerLinesLoop f2 file := by
  induction f1 generalizing f2 file with
  | zero => omega
  | succ g ih =>
    cases f2 with
    | zero => omega
    | succ k =>
      unfold headerLinesLoop
      cases hg : getline file with
      | none => rfl
      | some p =>
        obtain ⟨line, rest⟩ := p
        have hlen := getline_length file line rest hg
        simp only []
        rw [ih k rest (by omega) (by omega)]

theorem headerLinesLoop_line (fuel : Nat) (l rest : Str) (hnl : '\n' ∉ l)
    (hf : (l ++ '\n' :: rest).length < fuel) :
    headerLinesLoop fuel (l ++ '\n' :: rest) =
      if l = end_header then ([], rest)
      else (l :: headerLines rest, afterHeader rest) := by
  cases fuel with
  | zero => omega
  | succ k =>
    rw [headerLinesLoop, getline_line l rest hnl]
    simp only []
    have e : headerLinesLoop k rest = headerLinesLoop (rest.length + 1) rest :=
      headerLinesLoop_fuel _ _ _ (by simp at hf; omega) (by omega)
    rw [e]
    rfl

theorem headerLines_cons (l rest : Str) (hnl : '\n' ∉ l) (hne : l ≠ end_header) :
    headerLines (l ++ '\n' :: rest) = l :: headerLines rest
      ∧ afterHeader (l ++ '\n' :: rest) = afterHeader rest := by
  unfold headerLines afterHeader
  rw [headerLinesLoop_line _ l rest hnl (by omega), if_neg hne]
  exact ⟨rfl, rfl⟩

theorem headerLines_end (tail : Str) :
    headerLines (end_header ++ '\n' :: tail) = []
      ∧ afterHeader (end_header ++ '\n' :: tail) = tail := by
  unfold headerLines afterHeader
  rw [headerLinesLoop_line _ end_header tail (by decide) (by omega), if_pos rfl]
  exact ⟨rfl, rfl⟩

theorem headerLines_joinLines (pre : List Str) (tail : Str)
    (hpre : ∀ l ∈ pre, '\n' ∉ l ∧ l ≠ end_header) :
    headerLines (joinLines pre tail) = pre ++ headerLines tail
      ∧ afterHeader (joinLines pre tail) = afterHeader tail := by
  induction pre with
  | nil => exact ⟨rfl, rfl⟩
  | cons l ls ih =>
    have hl := hpre l (by simp)
    have h := headerLines_cons l (joinLines ls tail) hl.1 hl.2
    have ih2 := ih (fun m hm => hpre m (by simp [hm]))
    simp only [joinLines, List.cons_append]
    rw [h.1, h.2, ih2.1, ih2.2]
    exact ⟨rfl, rfl⟩

theorem headerLines_joinLines_end (pre : List Str) (tail : Str)
    (hpre : ∀ l ∈ pre, '\n' ∉ l ∧ l ≠ end_header) :
    headerLines (joinLines pre (end_header ++ '\n' :: tail)) = pre
      ∧ afterHeader (joinLines pre (end_header ++ '\n' :: tail)) = tail := by
  have h := headerLines_joinLines pre (end_header ++ '\n' :: tail) hpre
  rw [h.1, h.2, (headerLines_end tail).1, (headerLines_end tail).2, List.append_nil]
  exact ⟨rfl, rfl⟩

theorem headerLines_joinLines_eof (pre : List Str)
    (hpre : ∀ l ∈ pre, '\n' ∉ l ∧ l ≠ end_header) :
    headerLines (joinLines pre end_header) = pre
      ∧ afterHeader (joinLines pre end_header) = [] := by
  have h := headerLines_joinLines pre end_header hpre
  have e1 : headerLines end_header = [] := by decide
  have e2 : afterHeader end_header = [] := by decide
  rw [h.1, h.2, e1, e2, List.append_nil]
  exact ⟨rfl, rfl⟩

theorem headerLines_wf (file : Str) :
    ∀ l ∈ headerLines file, '\n' ∉ l ∧ l ≠ end_header :=
  headerLinesLoop_wf _ file

namespace Ply2

/-- The method `readHeader` of `ply2.cpp` in terms of the lines before `end_header`. -/
theorem readHeader_lines (io : PlyBinaryIO) (file : Str) :
    readHeader io file =
      match readHeaderLines (headerLines file) (io.vertex_count_, true) with
      | .error e => .error e
      | .ok st => .ok (⟨st.1⟩, st.2, afterHeader file) := by
  unfold readHeader headerLines afterHeader
  rw [readHeaderLoop_lines]
  cases readHeaderLines (headerLinesLoop (file.length + 1) file).1 (io.vertex_count_, true) with
  | error e => rfl
  | ok st => rfl

end Ply2

namespace Ply

/-- The method `readHeader` of `ply.cpp` in terms of the lines before `end_header`. -/
theorem ply_readHeader_lines (io : PlyBinaryIO) (file : Str) :
    readHeader io file =
      match readHeaderLines (headerLines file) io with
      | .error e => .error e
      | .ok io2 => .ok (io2, afterHeader file) := by
  unfold readHeader headerLines afterHeader
  exact ply_readHeaderLoop_lines _ file io

end Ply

/-! ## Every text with an `end_header` line splits at that line -/

theorem getlineDelim_inv (d : Char) (file l rest : Str)
    (h : getlineDelim d file = some (l, rest)) :
    file = l ++ d :: rest ∨ (file = l ∧ rest = []) := by
  induction file generalizing l rest with
  | nil => simp [getlineDelim] at h
  | cons c cs ih =>
    unfold getlineDelim at h
    split at h
    · next hc =>
      cases h
      exact Or.inl (by simp [hc])
    · split at h
      · cases h
        next hnone =>
        cases cs with
        | nil => exact Or.inr ⟨rfl, rfl⟩
        | cons x xs =>
          exfalso
          unfold getlineDelim at hnone
          split at hnone
          · cases hnone
          · split at hnone <;> cases hnone
      · next l2 r2 heq =>
        cases h
        rcases ih l2 rest heq with h1 | ⟨h1, h2⟩
        · exact Or.inl (by rw [h1]; rfl)
        · exact Or.inr ⟨by rw [h1], h2⟩

theorem getlines_split (fuel : Nat) (file : Str) (hf : file.length < fuel)
    (h : end_header ∈ getlines fuel file) :
    ∃ pre tail, (∀ l ∈ pre, '\n' ∉ l ∧ l ≠ end_header)
      ∧ (file = joinLines pre (end_header ++ '\n' :: tail) ∨ file = joinLines pre end_header) := by
  induction fuel generalizing file with
  | zero => omega
  | succ k ih =>
    unfold getlines at h
    cases hg : getline file with
    | none => rw [hg] at h; simp at h
    | some p =>
      obtain ⟨line, rest⟩ := p
      rw [hg] at h
      simp only [List.mem_cons] at h
      have hlen := getline_length file line rest hg
      have hnl := getline_not_mem file line rest hg
      by_cases he : line = end_header
      · rcases getlineDelim_inv '\n' file line rest hg with h1 | ⟨h1, _⟩
        · exact ⟨[], rest, by simp, Or.inl (by rw [h1, he]; rfl)⟩
        · exact ⟨[], [], by simp, Or.inr (by rw [h1, he]; rfl)⟩
      · have hrest : end_header ∈ getlines k rest := by
          rcases h with h | h
          · exact absurd h.symm he
          · exact h
        rcases getlineDelim_inv '\n' file line rest hg with h1 | ⟨_, h2⟩
        · obtain ⟨pre, tail, hpre, hsplit⟩ := ih rest (by omega) hrest
          refine ⟨line :: pre, tail, ?_, ?_⟩
          · intro l hl
            rcases List.mem_cons.mp hl with rfl | hl
            · exact ⟨hnl, he⟩
            · exact hpre l hl
          · rcases hsplit with hs | hs
            · exact Or.inl (by rw [h1, hs]; rfl)
            · exact Or.inr (by rw [h1, hs]; rfl)
        · rw [h2] at hrest
          cases k with
          | zero => simp [getlines] at hrest
          | succ j => simp [getlines, getline, getlineDelim] at hrest

/-- Every text with a line equal to `end_header` is made of lines other than
`end_header`, then the line `end_header`, then either a newline and the rest of the
text or nothing. -/
theorem exists_header_split (file : Str) (h : end_header ∈ allLines file) :
    ∃ pre tail, (∀ l ∈ pre, '\n' ∉ l ∧ l ≠ end_header)
      ∧ (file = joinLines pre (end_header ++ '\n' :: tail) ∨ file = joinLines pre end_header) :=
  getlines_split _ file (by omega) h

/-! ## A line put into a header -/

theorem headerLines_insert (pre : List Str) (line tail : Str)
    (hpre : ∀ l ∈ pre, '\n' ∉ l ∧ l ≠ end_header) (hnl : '\n' ∉ line)
    (hne : line ≠ end_header) :
    headerLines (joinLines (pre ++ [line]) tail) = pre ++ line :: headerLines tail
      ∧ afterHeader (joinLines (pre ++ [line]) tail) = afterHeader tail
      ∧ headerLines (joinLines pre tail) = pre ++ headerLines tail
      ∧ afterHeader (joinLines pre tail) = afterHeader tail := by
  have h1 := headerLines_joinLines (pre ++ [line]) tail (by
    intro l hl
    rcases List.mem_append.mp hl with hl | hl
    · exact hpre l hl
    · rw [List.mem_singleton.mp hl]; exact ⟨hnl, hne⟩)
  have h2 := headerLines_joinLines pre tail hpre
  refine ⟨?_, h1.2, h2.1, h2.2⟩
  rw [h1.1, List.append_assoc]
  rfl

namespace Ply2

theorem readHeaderLines_insert (pre post : List Str) (line : Str) (st : Nat × Bool)
    (h : ∀ s, readHeaderLine line s = .ok s) :
    readHeaderLines (pre ++ line :: post) st = readHeaderLines (pre ++ post) st := by
  rw [readHeaderLines_append, readHeaderLines_append]
  cases readHeaderLines pre st with
  | error e => rfl
  | ok st2 =>
    simp only [readHeaderLines]
    rw [h st2]

/-- A line on which the loop body has no effect can be put anywhere before
`end_header` without changing what `readHeader` returns. -/
theorem readHeader_insert (pre : List Str) (line tail : Str) (io : PlyBinaryIO)
    (hpre : ∀ l ∈ pre, '\n' ∉ l ∧ l ≠ end_header) (hnl : '\n' ∉ line)
    (hne : line ≠ end_header) (h : ∀ s, readHeaderLine line s = .ok s) :
    readHeader io (joinLines (pre ++ [line]) tail) = readHeader io (joinLines pre tail) := by
  have hl := headerLines_insert pre line tail hpre hnl hne
  rw [readHeader_lines, readHeader_lines, hl.1, hl.2.1, hl.2.2.1, hl.2.2.2,
    readHeaderLines_insert pre _ line _ h]

theorem readHeaderLine_ascii (st : Nat × Bool) :
    readHeaderLine "format ascii 1.0".toList st = .ok st := by
  unfold readHeaderLine
  have h1 : contains "format ascii 1.0".toList "element vertex".toList = false := by decide
  have h2 : contains "format ascii 1.0".toList "format".toList = true := by decide
  have h3 : contains "format ascii 1.0".toList "binary_big_endian".toList = false := by decide
  have h4 : contains "format ascii 1.0".toList "binary_little_endian".toList = false := by
    decide
  rw [h1, h2, h3, h4]
  rfl

end Ply2

namespace Ply

theorem ply_readHeaderLines_props_irrelevant (ls : List Str) (c : Nat)
    (p1 p2 : List Property) (hls : ls ≠ []) :
    readHeaderLines ls ⟨c, p1⟩ = readHeaderLines ls ⟨c, p2⟩ := by
  cases ls with
  | nil => exact absurd rfl hls
  | cons l rest =>
    rw [readHeaderLines, readHeaderLines, ply_readHeaderLine_count_only l c p1 p2]

theorem ply_readHeaderLines_count (ls : List Str) (c : Nat) (p1 p2 : List Property) :
    (readHeaderLines ls ⟨c, p1⟩).map (fun r => r.vertex_count_)
      = (readHeaderLines ls ⟨c, p2⟩).map (fun r => r.vertex_count_) := by
  cases ls with
  | nil => rfl
  | cons l rest =>
    rw [ply_readHeaderLines_props_irrelevant (l :: rest) c p1 p2 (by simp)]

/-- A line without `element vertex` put anywhere before `end_header` changes neither
the vertex count that `readHeader` of `ply.cpp` returns, nor whether it fails, nor what
it leaves unread; when a further line follows it changes nothing at all. -/
theorem ply_readHeader_insert (pre : List Str) (line tail : Str) (io : PlyBinaryIO)
    (hpre : ∀ l ∈ pre, '\n' ∉ l ∧ l ≠ end_header) (hnl : '\n' ∉ line)
    (hne : line ≠ end_header) (hev : contains line "element vertex".toList = false) :
    (readHeader io (joinLines (pre ++ [line]) tail)).map (fun r => (r.1.vertex_count_, r.2))
        = (readHeader io (joinLines pre tail)).map (fun r => (r.1.vertex_count_, r.2))
      ∧ (headerLines tail ≠ [] →
          readHeader io (joinLines (pre ++ [line]) tail) = readHeader io (joinLines pre tail)) := by
  have hl := headerLines_insert pre line tail hpre hnl hne
  rw [ply_readHeader_lines, ply_readHeader_lines, hl.1, hl.2.1, hl.2.2.1, hl.2.2.2,
    ply_readHeaderLines_append, ply_readHeaderLines_append]
  cases readHeaderLines pre io with
  | error e => exact ⟨rfl, fun _ => rfl⟩
  | ok io1 =>
    simp only [readHeaderLines]
    rw [ply_readHeaderLine_no_element line io1 hev]
    simp only []
    constructor
    · have hc := ply_readHeaderLines_count (headerLines tail) io1.vertex_count_
        (lineProperties line) io1.custom_properties_
      cases h1 : readHeaderLines (headerLines tail) ⟨io1.vertex_count_, lineProperties line⟩ with
      | error e =>
        cases h2 : readHeaderLines (headerLines tail) io1 with
        | error e2 =>
          rw [h1] at hc
          have h2b : readHeaderLines (headerLines tail)
              ⟨io1.vertex_count_, io1.custom_properties_⟩ = .error e2 := h2
          rw [h2b] at hc
          simp only [Except.map] at hc ⊢
          cases hc
          rfl
        | ok r2 =>
          rw [h1] at hc
          have h2b : readHeaderLines (headerLines tail)
              ⟨io1.vertex_count_, io1.custom_properties_⟩ = .ok r2 := h2
          rw [h2b] at hc
          simp only [Except.map] at hc
          cases hc
      | ok r1 =>
        cases h2 : readHeaderLines (headerLines tail) io1 with
        | error e2 =>
          rw [h1] at hc
          have h2b : readHeaderLines (headerLines tail)
              ⟨io1.vertex_count_, io1.custom_properties_⟩ = .error e2 := h2
          rw [h2b] at hc
          simp only [Except.map] at hc
          cases hc
        | ok r2 =>
          rw [h1] at hc
          have h2b : readHeaderLines (headerLines tail)
              ⟨io1.vertex_count_, io1.custom_properties_⟩ = .ok r2 := h2
          rw [h2b] at hc
          simp only [Except.map] at hc ⊢
          have hcount := Except.ok.inj hc
          rw [hcount]
    · intro hne2
      have := ply_readHeaderLines_props_irrelevant (headerLines tail) io1.vertex_count_
        (lineProperties line) io1.custom_properties_ hne2
      rw [this]

end Ply

namespace Ply

/-! ## The type names of `ply.cpp` -/

theorem appendProperty_name (props : List Property) (t : PropertyType) (name : Str)
    (offset : Nat) :
    appendProperty props (TypeInfo.name t) name offset
      = props ++ [⟨name, offset, sizeofType t, t⟩] := by
  cases t <;> rfl

theorem appendProperty_unknown (props : List Property) (ty name : Str) (offset : Nat)
    (h : ∀ t, ty ≠ TypeInfo.name t) : appendProperty props ty name offset = props := by
  unfold appendProperty
  rw [if_neg (h .UCHAR), if_neg (h .CHAR), if_neg (h .SHORT), if_neg (h .USHORT),
    if_neg (h .INT), if_neg (h .UINT), if_neg (h .FLOAT), if_neg (h .DOUBLE)]

theorem lineProperties_unknown (line : Str)
    (h : ∀ t, (tokenize line).getD 1 [] ≠ TypeInfo.name t) :
    lineProperties line = xyzProperties := by
  unfold lineProperties
  split
  · split
    · exact appendProperty_unknown _ _ _ _ h
    · rfl
  · rfl

end Ply

/-! ## Reading vertices from a payload that ends early -/

namespace Ply2

theorem ofBytes_bytes (v : CustomVertex) : CustomVertex.ofBytes v.bytes = v := by
  obtain ⟨⟨x0, x1, x2, x3⟩, ⟨y0, y1, y2, y3⟩, ⟨z0, z1, z2, z3⟩, r, g, b⟩ := v
  rfl

theorem readVertex_short (differ : Bool) (w : CustomVertex) (part : Str)
    (h : part.length < 15) :
    readVertex differ w part = (CustomVertex.ofBytes (overlay w.bytes part), []) := by
  have h1 : part.take sizeofCustomVertex = part :=
    List.take_of_length_le (by unfold sizeofCustomVertex; omega)
  have h2 : part.drop sizeofCustomVertex = [] :=
    List.drop_of_length_le (by unfold sizeofCustomVertex; omega)
  cases differ <;> simp only [readVertex, streamRead, h1, h2] <;> rfl

theorem readVertices_empty (differ : Bool) (ws : List CustomVertex) :
    readVertices differ ws [] = ws := by
  induction ws with
  | nil => rfl
  | cons w ws ih =>
    rw [readVertices, readVertex_short differ w [] (by simp)]
    simp only []
    rw [ih]
    have : overlay w.bytes [] = w.bytes := rfl
    rw [this, ofBytes_bytes]

theorem readVertices_short (differ : Bool) (full ws1 ws2 : List CustomVertex)
    (w : CustomVertex) (part : Str) (hlen : ws1.length = full.length)
    (hp : part.length < 15) :
    readVertices differ (ws1 ++ w :: ws2) (writeVertices full [] ++ part)
      = full ++ CustomVertex.ofBytes (overlay w.bytes part) :: ws2 := by
  induction full generalizing ws1 with
  | nil =>
    cases ws1 with
    | cons o os => simp at hlen
    | nil =>
      simp only [writeVertices, List.nil_append]
      rw [readVertices, readVertex_short differ w part hp]
      simp only []
      rw [readVertices_empty]
  | cons v vs ih =>
    cases ws1 with
    | nil => simp at hlen
    | cons o os =>
      rw [writeVertices_cons, List.append_assoc, List.cons_append, readVertices,
        readVertex_bytes]
      simp only []
      rw [ih os (by simpa using hlen)]
      rfl

theorem readVertices_length (differ : Bool) (ws : List CustomVertex) (file : Str) :
    (readVertices differ ws file).length = ws.length := by
  induction ws generalizing file with
  | nil => rfl
  | cons w ws ih =>
    simp only [readVertices, List.length_cons]
    rw [ih]

theorem resized_nil (n : Nat) : resized [] n = List.replicate n CustomVertex.zero := by
  simp [resized]

end Ply2

namespace Ply

theorem ply_ofBytes_bytes (v : CustomVertex) : CustomVertex.ofBytes v.bytes = v := by
  obtain ⟨⟨x0, x1, x2, x3⟩, ⟨y0, y1, y2, y3⟩, ⟨z0, z1, z2, z3⟩, r, g, b, pad⟩ := v
  rfl

theorem ply_readVertex_empty (props : List Property) (mem : Str)
    (h : ∀ p ∈ props, p.offset ≤ mem.length) :
    readVertex props mem [] = .ok (mem, []) := by
  induction props with
  | nil => rfl
  | cons p ps ih =>
    have hp := h p (by simp)
    have e : poke mem p.offset [] = mem := by
      simp [poke]
    simp only [readVertex, streamRead, List.take_nil, List.drop_nil, List.length_nil,
      Nat.add_zero]
    rw [if_neg (by omega), e]
    exact ih (fun q hq => h q (by simp [hq]))

theorem ply_readVertices_empty (props : List Property) (ws : List CustomVertex)
    (h : ∀ p ∈ props, p.offset ≤ 16) :
    readVertices props ws [] = .ok ws := by
  induction ws with
  | nil => rfl
  | cons w ws ih =>
    have hlen : w.bytes.length = 16 := rfl
    rw [readVertices, ply_readVertex_empty props w.bytes (by rw [hlen]; exact h)]
    simp only []
    rw [ih]
    simp only []
    rw [ply_ofBytes_bytes]

theorem ply_resized_nil (n : Nat) : resized [] n = List.replicate n CustomVertex.zero := by
  simp [resized]

theorem ply_resize_ok (old : List CustomVertex) (n : Nat)
    (h : n ≤ max_size sizeofCustomVertex) : resize old n = .ok (resized old n) := by
  unfold resize
  rw [if_neg (by omega)]

theorem ply_resize_error (old : List CustomVertex) (n : Nat)
    (h : max_size sizeofCustomVertex < n) : resize old n = .error .lengthError := by
  unfold resize
  rw [if_pos h]

end Ply

namespace Ply

/-! ## The schema that `readHeader` of `ply.cpp` leaves -/

theorem appendProperty_shape (props : List Property) (ty name : Str) (offset : Nat) :
    appendProperty props ty name offset = props
      ∨ ∃ t, appendProperty props ty name offset = props ++ [⟨name, offset, sizeofType t, t⟩] := by
  by_cases h : ∃ t, ty = TypeInfo.name t
  · obtain ⟨t, rfl⟩ := h
    exact Or.inr ⟨t, appendProperty_name props t name offset⟩
  · exact Or.inl (appendProperty_unknown props ty name offset
      (fun t ht => h ⟨t, ht⟩))

theorem lineProperties_shape (line : Str) :
    lineProperties line = xyzProperties
      ∨ ∃ name t, lineProperties line = xyzProperties ++ [⟨name, 12, sizeofType t, t⟩] := by
  unfold lineProperties
  split
  · split
    · rcases appendProperty_shape xyzProperties ((tokenize line).getD 1 [])
        ((tokenize line).getD 2 []) 12 with h | ⟨t, h⟩
      · exact Or.inl h
      · exact Or.inr ⟨_, t, h⟩
    · exact Or.inl rfl
  · exact Or.inl rfl

theorem ply_readHeaderLines_shape (ls : List Str) (io io2 : PlyBinaryIO)
    (h : readHeaderLines ls io = .ok io2) :
    io2.custom_properties_ = io.custom_properties_
      ∨ ∃ l, io2.custom_properties_ = lineProperties l := by
  induction ls generalizing io with
  | nil => cases h; exact Or.inl rfl
  | cons l rest ih =>
    rw [readHeaderLines] at h
    cases hl : readHeaderLine l io with
    | error e => rw [hl] at h; cases h
    | ok io1 =>
      rw [hl] at h
      rcases ih io1 h with h2 | ⟨l2, h2⟩
      · exact Or.inr ⟨l, by rw [h2]; exact ply_readHeaderLine_props l io io1 hl⟩
      · exact Or.inr ⟨l2, h2⟩

theorem ply_readHeader_shape (io io2 : PlyBinaryIO) (file rest : Str)
    (h : readHeader io file = .ok (io2, rest)) :
    io2.custom_properties_ = io.custom_properties_
      ∨ ∃ l, io2.custom_properties_ = lineProperties l := by
  rw [ply_readHeader_lines] at h
  cases hl : readHeaderLines (headerLines file) io with
  | error e => rw [hl] at h; cases h
  | ok io1 =>
    rw [hl] at h
    simp only [Except.ok.injEq, Prod.mk.injEq] at h
    rw [← h.1]
    exact ply_readHeaderLines_shape _ io io1 hl

theorem lineProperties_packed (line : Str) : packed (lineProperties line) = true := by
  rcases lineProperties_shape line with h | ⟨name, t, h⟩
  · rw [h]; rfl
  · rw [h]; cases t <;> rfl

theorem lineProperties_offset_le (line : Str) :
    ∀ p ∈ lineProperties line, p.offset ≤ 16 := by
  rcases lineProperties_shape line with h | ⟨name, t, h⟩
  · rw [h]; decide
  · rw [h]
    intro p hp
    simp only [xyzProperties, List.cons_append, List.nil_append, List.mem_cons,
      List.mem_singleton, List.not_mem_nil, or_false] at hp
    rcases hp with rfl | rfl | rfl | rfl <;> simp

theorem sizeofType_pos (t : PropertyType) : 0 < sizeofType t := by
  cases t <;> decide

theorem packedFrom_spec (off : Nat) (ps : List Property) (h : packedFrom off ps = true) :
    ∀ i p, ps[i]? = some p →
      p.offset = off + ((ps.take i).map (fun q => q.size)).sum
        ∧ p.size = sizeofType p.type := by
  induction ps generalizing off with
  | nil => intro i p hp; simp at hp
  | cons q qs ih =>
    simp only [packedFrom, Bool.and_eq_true, beq_iff_eq] at h
    intro i p hp
    cases i with
    | zero =>
      simp only [List.getElem?_cons_zero, Option.some.injEq] at hp
      subst hp
      simp [h.1.1, h.1.2]
    | succ j =>
      simp only [List.getElem?_cons_succ] at hp
      have := ih (off + q.size) h.2 j p hp
      refine ⟨?_, this.2⟩
      rw [this.1]
      simp only [List.take_succ_cons, List.map_cons, List.sum_cons]
      omega

theorem packedFrom_ge (off : Nat) (ps : List Property) (h : packedFrom off ps = true) :
    ∀ p ∈ ps, off ≤ p.offset := by
  induction ps generalizing off with
  | nil => intro p hp; simp at hp
  | cons q qs ih =>
    simp only [packedFrom, Bool.and_eq_true, beq_iff_eq] at h
    intro p hp
    rcases List.mem_cons.mp hp with rfl | hp
    · omega
    · have := ih (off + q.size) h.2 p hp
      omega

theorem packedFrom_increasing (off : Nat) (ps : List Property)
    (h : packedFrom off ps = true) :
    List.Pairwise (fun p q => p.offset < q.offset) ps := by
  induction ps generalizing off with
  | nil => exact List.Pairwise.nil
  | cons q qs ih =>
    have hq := h
    simp only [packedFrom, Bool.and_eq_true, beq_iff_eq] at hq
    refine List.Pairwise.cons ?_ (ih (off + q.size) hq.2)
    intro p hp
    have h1 := packedFrom_ge (off + q.size) qs hq.2 p hp
    have h2 := sizeofType_pos q.type
    omega

end Ply

/-! ## Maximal runs of non-delimiter characters -/

theorem runsAux_no_delim (d cur rest : Str) (h : ∀ c ∈ rest, c ∉ d) :
    runsAux d cur rest = if cur ++ rest = [] then [] else [cur ++ rest] := by
  induction rest generalizing cur with
  | nil => simp [runsAux]
  | cons c cs ih =>
    have hc : c ∉ d := h c (by simp)
    rw [runsAux, if_neg hc, ih (cur ++ [c]) (fun x hx => h x (by simp [hx]))]
    simp

theorem runsAux_delim (d cur tok : Str) (c : Char) (rest : Str)
    (htok : ∀ x ∈ tok, x ∉ d) (hc : c ∈ d) :
    runsAux d cur (tok ++ c :: rest) =
      (if cur ++ tok = [] then [] else [cur ++ tok]) ++ runs d rest := by
  induction tok generalizing cur with
  | nil =>
    simp only [List.nil_append, List.append_nil]
    rw [runsAux, if_pos hc]
    by_cases h : cur = []
    · rw [if_pos h, if_pos h]; rfl
    · rw [if_neg h, if_neg h]; rfl
  | cons x xs ih =>
    have hx : x ∉ d := htok x (by simp)
    rw [List.cons_append, runsAux, if_neg hx,
      ih (cur ++ [x]) (fun y hy => htok y (by simp [hy]))]
    simp

theorem exists_delim_split (d rest : Str) :
    (∀ c ∈ rest, c ∉ d)
      ∨ ∃ tok c rest2, rest = tok ++ c :: rest2 ∧ (∀ x ∈ tok, x ∉ d) ∧ c ∈ d := by
  induction rest with
  | nil => exact Or.inl (by simp)
  | cons c cs ih =>
    by_cases hc : c ∈ d
    · exact Or.inr ⟨[], c, cs, rfl, by simp, hc⟩
    · rcases ih with h | ⟨tok, c2, rest2, h1, h2, h3⟩
      · refine Or.inl ?_
        intro x hx
        rcases List.mem_cons.mp hx with rfl | hx
        · exact hc
        · exact h x hx
      · refine Or.inr ⟨c :: tok, c2, rest2, by rw [h1]; rfl, ?_, h3⟩
        intro x hx
        rcases List.mem_cons.mp hx with rfl | hx
        · exact hc
        · exact h2 x hx

theorem runsAux_spec (d cur s : Str) (hcur : ∀ x ∈ cur, x ∉ d) :
    (∀ t ∈ runsAux d cur s, t ≠ [] ∧ ∀ x ∈ t, x ∉ d)
      ∧ (runsAux d cur s).flatten = cur ++ s.filter (fun c => decide (c ∉ d)) := by
  induction s generalizing cur with
  | nil =>
    unfold runsAux
    by_cases h : cur = []
    · simp [h]
    · simp only [if_neg h, List.mem_singleton, List.filter_nil, List.append_nil]
      refine ⟨?_, by simp⟩
      rintro t rfl
      exact ⟨h, hcur⟩
  | cons c cs ih =>
    unfold runsAux
    by_cases hc : c ∈ d
    · have ih0 := ih [] (by simp)
      rw [if_pos hc]
      have hf : (c :: cs).filter (fun c => decide (c ∉ d))
          = cs.filter (fun c => decide (c ∉ d)) := by
        simp [List.filter_cons, hc]
      by_cases h : cur = []
      · rw [if_pos h, hf, h]
        exact ih0
      · rw [if_neg h, hf]
        refine ⟨?_, ?_⟩
        · intro t ht
          rcases List.mem_cons.mp ht with rfl | ht
          · exact ⟨h, hcur⟩
          · exact ih0.1 t ht
        · rw [List.flatten_cons, ih0.2]
          rfl
    · rw [if_neg hc]
      have ih1 := ih (cur ++ [c]) (by
        intro x hx
        rcases List.mem_append.mp hx with hx | hx
        · exact hcur x hx
        · rw [List.mem_singleton.mp hx]; exact hc)
      refine ⟨ih1.1, ?_⟩
      rw [ih1.2]
      simp [List.filter_cons, hc]

namespace Ply

/-- The method `tokenize` of `ply.cpp` returns the maximal runs of non-space
characters. -/
theorem tokenizeLoop_eq_runs (fuel : Nat) (stream : Str) (tokens : List Str)
    (hf : stream.length < fuel) :
    tokenizeLoop fuel stream tokens = tokens ++ runs [' '] stream := by
  induction fuel generalizing stream tokens with
  | zero => omega
  | succ k ih =>
    rcases exists_delim_split [' '] stream with h | ⟨tok, c, rest2, h1, h2, h3⟩
    · have hrun : runs [' '] stream = if stream = [] then [] else [stream] := by
        unfold runs
        rw [runsAux_no_delim _ _ _ h]
        rfl
      by_cases hs : stream = []
      · subst hs
        simp [tokenizeLoop, getlineDelim, runs, runsAux]
      · have hsp : ' ' ∉ stream := fun hm => h ' ' hm (by simp)
        rw [tokenizeLoop, getlineDelim_last ' ' stream hsp hs]
        simp only []
        rw [if_pos hs, hrun, if_neg hs]
        have hk : ([] : Str).length < k := by
          cases stream with
          | nil => exact absurd rfl hs
          | cons x xs => simp at hf ⊢; omega
        rw [ih [] _ hk]
        simp [runs, runsAux]
    · have hc : c = ' ' := by simpa using h3
      subst hc
      have hsp : ' ' ∉ tok := fun hm => h2 ' ' hm (by simp)
      have hrun : runs [' '] stream
          = (if tok = [] then [] else [tok]) ++ runs [' '] rest2 := by
        unfold runs
        rw [h1, runsAux_delim _ _ _ _ _ h2 h3]
        rfl
      have hlen : rest2.length < k := by
        rw [h1] at hf
        simp at hf
        omega
      rw [tokenizeLoop, h1, getlineDelim_line ' ' tok rest2 hsp]
      simp only []
      rw [← h1, hrun]
      by_cases ht : tok = []
      · rw [if_neg (by simpa using ht), if_pos ht, ih rest2 _ hlen]
        rfl
      · rw [if_pos ht, if_neg ht, ih rest2 _ hlen]
        simp

theorem tokenize_eq_runs (line : Str) : tokenize line = runs [' '] line := by
  unfold tokenize
  rw [tokenizeLoop_eq_runs _ line [] (by omega)]
  rfl

end Ply

namespace Ply2

theorem findFirstFrom_none (d rest : Str) (pos : Nat) (h : ∀ c ∈ rest, c ∉ d) :
    findFirstFrom d rest pos = none := by
  induction rest generalizing pos with
  | nil => rfl
  | cons c cs ih =>
    rw [findFirstFrom, if_neg (h c (by simp))]
    exact ih _ (fun x hx => h x (by simp [hx]))

theorem findFirstFrom_some (d tok : Str) (c : Char) (rest : Str) (pos : Nat)
    (htok : ∀ x ∈ tok, x ∉ d) (hc : c ∈ d) :
    findFirstFrom d (tok ++ c :: rest) pos = some (pos + tok.length) := by
  induction tok generalizing pos with
  | nil => simp [findFirstFrom, hc]
  | cons x xs ih =>
    rw [List.cons_append, findFirstFrom, if_neg (htok x (by simp)),
      ih _ (fun y hy => htok y (by simp [hy]))]
    simp only [List.length_cons]
    congr 1
    omega

theorem find_first_of_append (pre rest d : Str) :
    find_first_of (pre ++ rest) d pre.length = findFirstFrom d rest pre.length := by
  unfold find_first_of
  rw [List.drop_left]

/-- The loop of `split` started at the end of `pre`, together with the final test of
`split`, appends to `tokens` the maximal runs of non-delimiter characters of the
rest of the string. -/
theorem splitLoop_eq_runs (fuel : Nat) (d pre rest : Str) (tokens : List Str)
    (hf : rest.length < fuel) :
    (if (splitLoop fuel (pre ++ rest) d pre.length tokens).2 < (pre ++ rest).length then
        (splitLoop fuel (pre ++ rest) d pre.length tokens).1
          ++ [(pre ++ rest).drop (splitLoop fuel (pre ++ rest) d pre.length tokens).2]
      else (splitLoop fuel (pre ++ rest) d pre.length tokens).1)
      = tokens ++ runs d rest := by
  induction fuel generalizing pre rest tokens with
  | zero => omega
  | succ k ih =>
    rcases exists_delim_split d rest with h | ⟨tok, c, rest2, h1, h2, h3⟩
    · have hrun : runs d rest = if rest = [] then [] else [rest] := by
        unfold runs
        rw [runsAux_no_delim _ _ _ h]
        rfl
      rw [splitLoop, find_first_of_append, findFirstFrom_none d rest _ h]
      simp only []
      rw [hrun, List.drop_left]
      by_cases hr : rest = []
      · rw [if_pos hr, if_neg (by simp [hr])]
        simp
      · rw [if_neg hr, if_pos (by
          have : 0 < rest.length := List.length_pos.mpr hr
          simp only [List.length_append]
          omega)]
    · have hrun : runs d rest = (if tok = [] then [] else [tok]) ++ runs d rest2 := by
        unfold runs
        rw [h1, runsAux_delim _ _ _ _ _ h2 h3]
        rfl
      have hlen : rest2.length < k := by
        rw [h1] at hf
        simp at hf
        omega
      have hs : pre ++ rest = (pre ++ tok ++ [c]) ++ rest2 := by
        rw [h1]; simp
      have hstart : pre.length + tok.length + 1 = (pre ++ tok ++ [c]).length := by
        simp only [List.length_append, List.length_singleton]
      have hsub : substr (pre ++ rest) pre.length (pre.length + tok.length - pre.length)
          = tok := by
        unfold substr
        rw [List.drop_left, h1, Nat.add_sub_cancel_left, List.take_left]
      rw [splitLoop, find_first_of_append, h1, findFirstFrom_some d tok c rest2 _ h2 h3]
      simp only []
      rw [← h1, hsub, hstart, hs, ih (pre ++ tok ++ [c]) rest2 _ hlen, hrun]
      by_cases ht : tok = []
      · subst ht
        simp
      · have hne : pre.length + tok.length ≠ pre.length := by
          have : 0 < tok.length := List.length_pos.mpr ht
          omega
        simp [ht, hne]

theorem split_eq_runs (s d : Str) : split s d = runs d s := by
  have h := splitLoop_eq_runs (s.length + 1) d [] s [] (by omega)
  simp only [List.nil_append, List.length_nil] at h
  unfold split
  exact h

end Ply2

namespace Ply

theorem ply_readHeaderLines_last (ls : List Str) (io io2 : PlyBinaryIO) (last : Str)
    (h : readHeaderLines ls io = .ok io2) (hlast : ls.getLast? = some last) :
    io2.custom_properties_ = lineProperties last := by
  induction ls generalizing io with
  | nil => simp at hlast
  | cons l rest ih =>
    rw [readHeaderLines] at h
    cases hl : readHeaderLine l io with
    | error e => rw [hl] at h; cases h
    | ok io1 =>
      rw [hl] at h
      cases rest with
      | nil =>
        simp only [readHeaderLines, Except.ok.injEq] at h
        simp only [List.getLast?_singleton, Option.some.injEq] at hlast
        rw [← h, ← hlast]
        exact ply_readHeaderLine_props l io io1 hl
      | cons m ms =>
        rw [List.getLast?_cons_cons] at hlast
        exact ih io1 h hlast

theorem lineProperties_extra (line : Str) :
    lineProperties line ≠ xyzProperties ↔
      (contains line "property".toList = true ∧ 3 ≤ (tokenize line).length
        ∧ ∃ t, (tokenize line).getD 1 [] = TypeInfo.name t) := by
  constructor
  · intro h
    by_cases h1 : contains line "property".toList = true
    · by_cases h2 : 3 ≤ (tokenize line).length
      · by_cases h3 : ∃ t, (tokenize line).getD 1 [] = TypeInfo.name t
        · exact ⟨h1, h2, h3⟩
        · exact absurd (lineProperties_unknown line (fun t ht => h3 ⟨t, ht⟩)) h
      · exfalso
        apply h
        unfold lineProperties
        rw [if_pos h1, if_neg (by omega)]
    · exfalso
      apply h
      unfold lineProperties
      rw [if_neg h1]
  · rintro ⟨h1, h2, t, h3⟩ heq
    unfold lineProperties at heq
    rw [if_pos h1, if_pos (by omega), h3, appendProperty_name] at heq
    have := congrArg List.length heq
    simp [xyzProperties] at this

theorem lineProperties_field (line : Str) :
    lineProperties line = xyzProperties
      ∨ ∃ t, (tokenize line).getD 1 [] = TypeInfo.name t
          ∧ lineProperties line
            = xyzProperties ++ [⟨(tokenize line).getD 2 [], 12, sizeofType t, t⟩] := by
  by_cases h : lineProperties line = xyzProperties
  · exact Or.inl h
  · obtain ⟨h1, h2, t, h3⟩ := (lineProperties_extra line).mp h
    refine Or.inr ⟨t, h3, ?_⟩
    unfold lineProperties
    rw [if_pos h1, if_pos (by omega), h3, appendProperty_name]

end Ply

namespace Ply2

/-! ## Headers whose counts `std::stoi` accepts -/

end Ply2

/-! ## The claims -/

/-- C1 (fails on the code): writing 2147483648 vertices with `write` of `ply2.cpp` and
reading the file back with `read` into an empty vector on the same host does not return the vertices:
`readHeader` passes the count `2147483648` to `std::stoi`, which throws
`std::out_of_range`. -/
theorem Ply2.read_write_large_throws :
    Ply2.read true ⟨0⟩ []
        (Ply2.write true ⟨0⟩ (List.replicate 2147483648 Ply2.CustomVertex.zero)).2
      = .error .outOfRange := by
  rw [Ply2.read_write_eq, List.length_replicate]
  exact if_pos (by decide)

set_option maxRecDepth 100000 in
/-- C2 (fails on the code): `main` of `ply.cpp` writes its three vertices with a freshly
constructed object and reads them back; on either host the vector read back holds
three all-zero vertices, which differ from the ones written. -/
theorem Ply.main_reads_zero_vertices :
    ∀ hostLE : Bool,
      (Ply.main hostLE).map (fun p => p.2)
          = .ok [Ply.CustomVertex.zero, Ply.CustomVertex.zero, Ply.CustomVertex.zero]
        ∧ (Ply.main hostLE).map (fun p => p.2) ≠ .ok (Ply.mainVertices hostLE) := by
  decide

set_option maxRecDepth 100000 in
/-- C3 (fails on the code): the file that `main` of `ply.cpp` writes is the four header
lines `ply`, `format binary_little_endian 1.0`, `element vertex 3`, `end_header` and
nothing else: the line `element vertex 3` is there, but there is no `property` line. -/
theorem Ply.main_header_has_no_property_line :
    ∀ hostLE : Bool,
      (Ply.main hostLE).map (fun p => p.1)
          = .ok (joinLines ["ply".toList, "format binary_little_endian 1.0".toList,
              "element vertex 3".toList, "end_header".toList] [])
        ∧ (Ply.main hostLE).map (fun p => contains p.1 "property".toList) = .ok false := by
  decide

namespace Ply2

/-- C4: for every vertex count `n`, either host byte order and every member list, the
text emitted by `writeHeader` of `ply2.cpp` is exactly the lines `ply`, the format line
(little- or big-endian), `element vertex n`, one line `property <typeName> <fieldName>`
per member in declared order, and `end_header`, each followed by one newline and with
nothing after the last one; the count is written in decimal (a non-empty run of digits
whose value is `n`). -/
theorem writeHeader_text (hostLE : Bool) (n : Nat) (members : List Member) :
    writeHeader hostLE ⟨n⟩ members [] =
        joinLines
          (["ply".toList,
            if hostLE then "format binary_little_endian 1.0".toList
            else "format binary_big_endian 1.0".toList,
            "element vertex ".toList ++ decimal n]
            ++ members.map (fun m => "property ".toList ++ m.typeName ++ " ".toList ++ m.name)
            ++ ["end_header".toList]) []
      ∧ decimal n ≠ [] ∧ (∀ c ∈ decimal n, c.isDigit = true) ∧ digitsVal (decimal n) = n :=
  ⟨writeHeader_eq hostLE ⟨n⟩ members [], decimal_ne_nil n, decimal_all_digits n,
    digitsVal_decimal n⟩

end Ply2

namespace Ply

set_option maxRecDepth 100000 in
/-- C6 (fails on the code): for the header with the six property lines `float x`,
`float y`, `float z`, `uchar r`, `uchar g`, `uchar b` (all recognised types),
`readHeader` of `ply.cpp` yields the four fields `x`, `y`, `z`, `b` and not one field
per property line, and `writeHeader` of the parsed object writes four property lines,
a header different from the one read. -/
theorem readHeader_keeps_last_property_only :
    readHeader ⟨0, []⟩
        (joinLines ["ply".toList, "format binary_little_endian 1.0".toList,
          "element vertex 3".toList, "property float x".toList, "property float y".toList,
          "property float z".toList, "property uchar r".toList, "property uchar g".toList,
          "property uchar b".toList, "end_header".toList] [])
      = .ok (⟨3, [⟨"x".toList, 0, 4, .FLOAT⟩, ⟨"y".toList, 4, 4, .FLOAT⟩,
              ⟨"z".toList, 8, 4, .FLOAT⟩, ⟨"b".toList, 12, 1, .UCHAR⟩]⟩, [])
    ∧ writeHeader ⟨3, [⟨"x".toList, 0, 4, .FLOAT⟩, ⟨"y".toList, 4, 4, .FLOAT⟩,
              ⟨"z".toList, 8, 4, .FLOAT⟩, ⟨"b".toList, 12, 1, .UCHAR⟩]⟩ []
      = joinLines ["ply".toList, "format binary_little_endian 1.0".toList,
          "element vertex 3".toList, "property float x".toList, "property float y".toList,
          "property float z".toList, "property uchar b".toList, "end_header".toList] [] := by
  decide

end Ply

namespace Ply2

/-- C7: for every scalar value of width 1, 2, 4 or 8 bytes, `swapEndian` applied twice
gives back the same bytes. -/
theorem swapEndian_swapEndian (v : Str)
    (_h : v.length = 1 ∨ v.length = 2 ∨ v.length = 4 ∨ v.length = 8) :
    swapEndian (swapEndian v) = v := by
  rw [swapEndian_eq_reverse, swapEndian_eq_reverse, List.reverse_reverse]

/-- C7, at the four bytes `00 00 80 3F` of the `float` 1.0 on a little-endian host. -/
theorem swapEndian_swapEndian_witness :
    (['\x00', '\x00', '\x80', '\x3f'].length = 1 ∨ ['\x00', '\x00', '\x80', '\x3f'].length = 2
        ∨ ['\x00', '\x00', '\x80', '\x3f'].length = 4
        ∨ ['\x00', '\x00', '\x80', '\x3f'].length = 8)
      ∧ swapEndian (swapEndian ['\x00', '\x00', '\x80', '\x3f'])
          = ['\x00', '\x00', '\x80', '\x3f'] :=
  ⟨by decide, swapEndian_swapEndian ['\x00', '\x00', '\x80', '\x3f'] (by decide)⟩

/-- C8: for every scalar value `v` of width 1, 2, 4 or 8 bytes, `swapEndian v` has the
same width, its byte `i` is byte `width - 1 - i` of `v` for every `i` below the width,
and for width 1 the result is `v` itself. -/
theorem swapEndian_bytes (v : Str)
    (_h : v.length = 1 ∨ v.length = 2 ∨ v.length = 4 ∨ v.length = 8) :
    (swapEndian v).length = v.length
      ∧ (∀ i, i < v.length → (swapEndian v)[i]? = v[v.length - 1 - i]?)
      ∧ (v.length = 1 → swapEndian v = v) := by
  refine ⟨swapEndian_length v, ?_, ?_⟩
  · intro i hi
    rw [swapEndian_eq_reverse, List.getElem?_reverse hi]
  · intro h1
    rw [swapEndian_eq_reverse]
    match v, h1 with
    | [a], _ => rfl

/-- C8, at the two bytes `01 02` of a `short`. -/
theorem swapEndian_bytes_witness :
    (['\x01', '\x02'].length = 1 ∨ ['\x01', '\x02'].length = 2
        ∨ ['\x01', '\x02'].length = 4 ∨ ['\x01', '\x02'].length = 8)
      ∧ ((swapEndian ['\x01', '\x02']).length = ['\x01', '\x02'].length
        ∧ (∀ i, i < ['\x01', '\x02'].length →
            (swapEndian ['\x01', '\x02'])[i]? = ['\x01', '\x02'][['\x01', '\x02'].length - 1 - i]?)
        ∧ (['\x01', '\x02'].length = 1 → swapEndian ['\x01', '\x02'] = ['\x01', '\x02'])) :=
  ⟨by decide, swapEndian_bytes ['\x01', '\x02'] (by decide)⟩

set_option maxRecDepth 100000 in
/-- C9 (fails on the code): a file that declares `format binary_big_endian 1.0` and holds
one vertex whose `x` bytes are `00 00 80 3F` (the `float` 1.0 of a little-endian host),
read on a little-endian host: the declared and the host byte order differ, yet `read`
stores `x` as found, `00 00 80 3F`, which is 1.0 again and not the byte-reversed
`3F 80 00 00`. -/
theorem read_cross_endian_stores_unswapped :
    read true ⟨0⟩ []
        (joinLines ["ply".toList, "format binary_big_endian 1.0".toList,
          "element vertex 1".toList, "property float x".toList, "property float y".toList,
          "property float z".toList, "property uchar r".toList, "property uchar g".toList,
          "property uchar b".toList, "end_header".toList]
          ['\x00', '\x00', '\x80', '\x3f', '\x00', '\x00', '\x00', '\x00',
           '\x00', '\x00', '\x00', '\x00', '\x00', '\x00', '\x00'])
      = .ok (⟨1⟩, [⟨F32.ofBits true 0x3F800000, F32.ofBits true 0, F32.ofBits true 0,
              '\x00', '\x00', '\x00'⟩])
    ∧ (F32.ofBits true 0x3F800000).bytes = ['\x00', '\x00', '\x80', '\x3f']
    ∧ swapEndian (F32.ofBits true 0x3F800000).bytes = ['\x3f', '\x80', '\x00', '\x00'] := by
  decide

end Ply2

/-- C10 (fails as stated): on a big-endian host the format line of the host is
`format binary_big_endian 1.0`, but the header written by `writeHeader` of `ply.cpp`
has the format line `format binary_little_endian 1.0`. -/
theorem ply_writeHeader_declares_little_endian :
    nthLine 1 (Ply.writeHeader ⟨3, Ply.xyzProperties⟩ []) = some (formatLine true)
      ∧ nthLine 1 (Ply.writeHeader ⟨3, Ply.xyzProperties⟩ []) ≠ some (formatLine false) := by
  decide

/-- C10 (amended): on either host, the format line written by `writeHeader` of
`ply2.cpp` declares the host's byte order; the format line written by `writeHeader` of
`ply.cpp` is `format binary_little_endian 1.0` whatever the host, which is the host's
byte order exactly on a little-endian host. -/
theorem writeHeader_format_line :
    (∀ (hostLE : Bool) (n : Nat) (members : List Ply2.Member),
        nthLine 1 (Ply2.writeHeader hostLE ⟨n⟩ members []) = some (formatLine hostLE))
      ∧ (∀ (n : Nat) (props : List Ply.Property),
        nthLine 1 (Ply.writeHeader ⟨n, props⟩ []) = some (formatLine true))
      ∧ (∀ hostLE : Bool, formatLine true = formatLine hostLE ↔ hostLE = true) := by
  refine ⟨?_, ?_, ?_⟩
  · intro hostLE n members
    rw [Ply2.writeHeader_eq, List.nil_append]
    exact nthLine_one_joinLines _ _ _ _ (by decide) (formatLine_not_newline hostLE)
  · intro n props
    rw [Ply.ply_writeHeader_eq, List.nil_append]
    exact nthLine_one_joinLines _ _ _ _ (by decide) (formatLine_not_newline true)
  · decide

set_option maxRecDepth 100000 in
/-- C13 (fails on the code): the header `ply`, `format binary_little_endian 1.0`,
`end_header` has no `element vertex` line, yet `readHeader` of `ply2.cpp` returns
normally, with the stale count 7 of the object it is called on, and `readHeader` of
`ply.cpp` on a fresh object returns normally with the count 0. -/
theorem readHeader_without_count_returns :
    Ply2.readHeader ⟨7⟩
        (joinLines ["ply".toList, "format binary_little_endian 1.0".toList,
          "end_header".toList] [])
      = .ok (⟨7⟩, true, [])
    ∧ Ply.readHeader ⟨0, []⟩
        (joinLines ["ply".toList, "format binary_little_endian 1.0".toList,
          "end_header".toList] [])
      = .ok (⟨0, Ply.xyzProperties⟩, []) := by
  decide

/-- C13 (amended): for every text in which no line before `end_header` contains
`element vertex`, `readHeader` (of `ply2.cpp` and of `ply.cpp`) returns normally and
leaves the vertex count of the object as it was before the call. -/
theorem readHeader_without_count (file : Str) (io2 : Ply2.PlyBinaryIO)
    (io : Ply.PlyBinaryIO)
    (h : ∀ l ∈ headerLines file, contains l "element vertex".toList = false) :
    (∃ le, Ply2.readHeader io2 file = .ok (⟨io2.vertex_count_⟩, le, afterHeader file))
      ∧ (∃ props, Ply.readHeader io file
          = .ok (⟨io.vertex_count_, props⟩, afterHeader file)) := by
  constructor
  · obtain ⟨le, hle⟩ := Ply2.readHeaderLines_no_element (headerLines file)
      (io2.vertex_count_, true) h
    exact ⟨le, by rw [Ply2.readHeader_lines, hle]⟩
  · obtain ⟨props, hp⟩ := Ply.ply_readHeaderLines_no_element (headerLines file) io h
    exact ⟨props, by rw [Ply.ply_readHeader_lines, hp]⟩

set_option maxRecDepth 100000 in
/-- C13 (amended), at the header `ply`, `format binary_big_endian 1.0`, `end_header`
followed by the bytes `ab`, and objects whose count is 7 and 5. -/
theorem readHeader_without_count_witness :
    (∀ l ∈ headerLines (joinLines ["ply".toList, "format binary_big_endian 1.0".toList,
        "end_header".toList] "ab".toList), contains l "element vertex".toList = false)
      ∧ ((∃ le, Ply2.readHeader ⟨7⟩ (joinLines ["ply".toList,
            "format binary_big_endian 1.0".toList, "end_header".toList] "ab".toList)
          = .ok (⟨7⟩, le, afterHeader (joinLines ["ply".toList,
            "format binary_big_endian 1.0".toList, "end_header".toList] "ab".toList)))
        ∧ (∃ props, Ply.readHeader ⟨5, []⟩ (joinLines ["ply".toList,
            "format binary_big_endian 1.0".toList, "end_header".toList] "ab".toList)
          = .ok (⟨5, props⟩, afterHeader (joinLines ["ply".toList,
            "format binary_big_endian 1.0".toList, "end_header".toList] "ab".toList)))) :=
  ⟨by decide, readHeader_without_count _ ⟨7⟩ ⟨5, []⟩ (by decide)⟩

set_option maxRecDepth 100000 in
/-- C15 (fails on the code): the text `ply`, `format binary_big_endian 1.0`,
`element vertex 3` has no `end_header` line, yet `readHeader` (of `ply2.cpp` and of
`ply.cpp`) returns normally at the end of the input, with the count 3. -/
theorem readHeader_without_end_header_returns :
    Ply2.readHeader ⟨0⟩
        (joinLines ["ply".toList, "format binary_big_endian 1.0".toList,
          "element vertex 3".toList] [])
      = .ok (⟨3⟩, false, [])
    ∧ Ply.readHeader ⟨0, []⟩
        (joinLines ["ply".toList, "format binary_big_endian 1.0".toList,
          "element vertex 3".toList] [])
      = .ok (⟨3, Ply.xyzProperties⟩, []) := by
  decide

/-- C15 (amended): for every text with no line equal to `end_header`, `readHeader` (of
`ply2.cpp` and of `ply.cpp`) runs its loop body on every line of the text and then
returns normally with the stream exhausted; it fails only with an exception of
`std::stoi`, raised on a line that contains `element vertex`. -/
theorem readHeader_without_end_header (file : Str) (io2 : Ply2.PlyBinaryIO)
    (io : Ply.PlyBinaryIO) (h : end_header ∉ allLines file) :
    (Ply2.readHeader io2 file =
        match Ply2.readHeaderLines (allLines file) (io2.vertex_count_, true) with
        | .error e => .error e
        | .ok st => .ok (⟨st.1⟩, st.2, []))
      ∧ (Ply.readHeader io file =
        match Ply.readHeaderLines (allLines file) io with
        | .error e => .error e
        | .ok r => .ok (r, []))
      ∧ (∀ e, (Ply2.readHeader io2 file = .error e ∨ Ply.readHeader io file = .error e) →
          ∃ l ∈ allLines file, contains l "element vertex".toList = true) := by
  have hl := headerLines_no_end file h
  refine ⟨?_, ?_, ?_⟩
  · rw [Ply2.readHeader_lines, hl.1, hl.2]
  · rw [Ply.ply_readHeader_lines, hl.1, hl.2]
  · intro e he
    by_contra hno
    have hall : ∀ l ∈ headerLines file, contains l "element vertex".toList = false := by
      intro l hmem
      rw [hl.1] at hmem
      cases hc : contains l "element vertex".toList with
      | false => rfl
      | true => exact absurd ⟨l, hmem, hc⟩ hno
    obtain ⟨le, h2⟩ := Ply2.readHeaderLines_no_element (headerLines file)
      (io2.vertex_count_, true) hall
    obtain ⟨props, h1⟩ := Ply.ply_readHeaderLines_no_element (headerLines file) io hall
    rcases he with he | he
    · rw [Ply2.readHeader_lines, h2] at he; cases he
    · rw [Ply.ply_readHeader_lines, h1] at he; cases he

set_option maxRecDepth 100000 in
/-- C15 (amended), at the text `ply`, `element vertex 2` with an unterminated last
line. -/
theorem readHeader_without_end_header_witness :
    end_header ∉ allLines "ply\nelement vertex 2".toList
      ∧ Ply2.readHeader ⟨0⟩ "ply\nelement vertex 2".toList = .ok (⟨2⟩, true, [])
      ∧ Ply.readHeader ⟨0, []⟩ "ply\nelement vertex 2".toList
          = .ok (⟨2, Ply.xyzProperties⟩, []) :=
  have h := readHeader_without_end_header "ply\nelement vertex 2".toList ⟨0⟩ ⟨0, []⟩
    (by decide)
  ⟨by decide, h.1.trans (by decide), h.2.1.trans (by decide)⟩

namespace Ply2

end Ply2

/-- C20: for every input made of lines other than `end_header`, then the line
`end_header` with its newline, then any bytes `tail`, `readHeader` (of `ply2.cpp` and of
`ply.cpp`) leaves exactly `tail` unread, and its result is the loop body run over the
lines before `end_header`: it is the same whatever `tail` is.  The same holds, with
nothing left unread, when the input ends with an unterminated `end_header` line. -/
theorem readHeader_stops_at_end_header (pre : List Str) (tail : Str)
    (io2 : Ply2.PlyBinaryIO) (io : Ply.PlyBinaryIO)
    (hpre : ∀ l ∈ pre, '\n' ∉ l ∧ l ≠ end_header) :
    (Ply2.readHeader io2 (joinLines pre (end_header ++ '\n' :: tail)) =
        match Ply2.readHeaderLines pre (io2.vertex_count_, true) with
        | .error e => .error e
        | .ok st => .ok (⟨st.1⟩, st.2, tail))
      ∧ (Ply.readHeader io (joinLines pre (end_header ++ '\n' :: tail)) =
        match Ply.readHeaderLines pre io with
        | .error e => .error e
        | .ok r => .ok (r, tail))
      ∧ (Ply2.readHeader io2 (joinLines pre end_header) =
        match Ply2.readHeaderLines pre (io2.vertex_count_, true) with
        | .error e => .error e
        | .ok st => .ok (⟨st.1⟩, st.2, []))
      ∧ (Ply.readHeader io (joinLines pre end_header) =
        match Ply.readHeaderLines pre io with
        | .error e => .error e
        | .ok r => .ok (r, [])) := by
  have h1 := headerLines_joinLines_end pre tail hpre
  have h2 := headerLines_joinLines_eof pre hpre
  refine ⟨?_, ?_, ?_, ?_⟩
  · rw [Ply2.readHeader_lines, h1.1, h1.2]
  · rw [Ply.ply_readHeader_lines, h1.1, h1.2]
  · rw [Ply2.readHeader_lines, h2.1, h2.2]
  · rw [Ply.ply_readHeader_lines, h2.1, h2.2]

set_option maxRecDepth 100000 in
/-- C20, at the header lines `ply`, `format binary_big_endian 1.0`, `element vertex 3`
followed by `end_header` and the bytes `xyz`. -/
theorem readHeader_stops_at_end_header_witness :
    (∀ l ∈ ["ply".toList, "format binary_big_endian 1.0".toList, "element vertex 3".toList],
        '\n' ∉ l ∧ l ≠ end_header)
      ∧ Ply2.readHeader ⟨0⟩ (joinLines ["ply".toList, "format binary_big_endian 1.0".toList,
          "element vertex 3".toList] (end_header ++ '\n' :: "xyz".toList))
        = .ok (⟨3⟩, false, "xyz".toList)
      ∧ Ply.readHeader ⟨0, []⟩ (joinLines ["ply".toList,
          "format binary_big_endian 1.0".toList, "element vertex 3".toList]
          (end_header ++ '\n' :: "xyz".toList))
        = .ok (⟨3, Ply.xyzProperties⟩, "xyz".toList) :=
  have h := readHeader_stops_at_end_header
    ["ply".toList, "format binary_big_endian 1.0".toList, "element vertex 3".toList]
    "xyz".toList ⟨0⟩ ⟨0, []⟩ (by decide)
  ⟨by decide, h.1.trans (by decide), h.2.1.trans (by decide)⟩

namespace Ply

set_option maxRecDepth 100000 in
/-- C12 (fails on the code): for the header `ply`, `format binary_little_endian 1.0`,
`element vertex 3`, `property weird fieldA`, `end_header`, `readHeader` of `ply.cpp`
raises no error: it returns the count 3 and the schema `x`, `y`, `z`. -/
theorem readHeader_unknown_type_returns :
    readHeader ⟨0, []⟩ (joinLines ["ply".toList, "format binary_little_endian 1.0".toList,
        "element vertex 3".toList, "property weird fieldA".toList, "end_header".toList] [])
      = .ok (⟨3, xyzProperties⟩, []) := by
  decide

/-- C12 (amended): a line whose type token (its second token) is none of the eight type
names, and which does not contain `element vertex`, raises no error in `readHeader` of
`ply.cpp`: the loop body keeps the vertex count and leaves the schema `x`, `y`, `z`,
without a field for the line; put after any lines before `end_header` of any text, the
line changes neither the vertex count returned, nor whether `readHeader` fails, nor
the input left unread. -/
theorem readHeader_unknown_type (pre : List Str) (line tail : Str) (io : PlyBinaryIO)
    (htype : ∀ t, (tokenize line).getD 1 [] ≠ TypeInfo.name t)
    (hev : contains line "element vertex".toList = false)
    (hpre : ∀ l ∈ pre, '\n' ∉ l ∧ l ≠ end_header) (hnl : '\n' ∉ line)
    (hne : line ≠ end_header) :
    readHeaderLine line io = .ok ⟨io.vertex_count_, xyzProperties⟩
      ∧ (readHeader io (joinLines (pre ++ [line]) tail)).map
            (fun r => (r.1.vertex_count_, r.2))
          = (readHeader io (joinLines pre tail)).map (fun r => (r.1.vertex_count_, r.2)) := by
  refine ⟨?_, (ply_readHeader_insert pre line tail io hpre hnl hne hev).1⟩
  rw [ply_readHeaderLine_no_element line io hev, lineProperties_unknown line htype]

set_option maxRecDepth 100000 in
/-- C12 (amended), at the line `property weird fieldA` put after `ply`, the format line
and `element vertex 3`, before `end_header`. -/
theorem readHeader_unknown_type_witness :
    (∀ t, (tokenize "property weird fieldA".toList).getD 1 [] ≠ TypeInfo.name t)
      ∧ contains "property weird fieldA".toList "element vertex".toList = false
      ∧ readHeaderLine "property weird fieldA".toList ⟨3, []⟩ = .ok ⟨3, xyzProperties⟩
      ∧ (readHeader ⟨0, []⟩ (joinLines (["ply".toList,
            "format binary_little_endian 1.0".toList, "element vertex 3".toList]
            ++ ["property weird fieldA".toList]) (joinLines ["end_header".toList] []))).map
          (fun r => (r.1.vertex_count_, r.2)) = .ok (3, []) :=
  have ht : ∀ t, (tokenize "property weird fieldA".toList).getD 1 [] ≠ TypeInfo.name t := by
    intro t
    cases t <;> decide
  have h := readHeader_unknown_type ["ply".toList, "format binary_little_endian 1.0".toList,
    "element vertex 3".toList] "property weird fieldA".toList
    (joinLines ["end_header".toList] []) ⟨0, []⟩ ht (by decide) (by decide) (by decide)
    (by decide)
  ⟨ht, by decide, (readHeader_unknown_type [] "property weird fieldA".toList [] ⟨3, []⟩ ht
      (by decide) (by decide) (by decide) (by decide)).1, h.2.trans (by decide)⟩

end Ply

namespace Ply2

set_option maxRecDepth 100000 in
/-- C14 (fails on the code): for the header `ply`, `format ascii 1.0`,
`element vertex 3`, `end_header`, `readHeader` of `ply2.cpp` raises no error: it returns
the count 3 and reports the file as little-endian. -/
theorem readHeader_format_ascii_returns :
    readHeader ⟨0⟩ (joinLines ["ply".toList, "format ascii 1.0".toList,
        "element vertex 3".toList, "end_header".toList] [])
      = .ok (⟨3⟩, true, []) := by
  decide

/-- C14 (amended): the line `format ascii 1.0` has no effect in `readHeader` of
`ply2.cpp`: the loop body leaves the count and the endianness as they are, so a text
with that line after any lines before `end_header` is read exactly like the text
without it (the endianness is the one the other lines set, little-endian by
default). -/
theorem readHeader_format_ascii (pre : List Str) (tail : Str) (io : PlyBinaryIO)
    (hpre : ∀ l ∈ pre, '\n' ∉ l ∧ l ≠ end_header) :
    (∀ st, readHeaderLine "format ascii 1.0".toList st = .ok st)
      ∧ readHeader io (joinLines (pre ++ ["format ascii 1.0".toList]) tail)
          = readHeader io (joinLines pre tail) :=
  ⟨readHeaderLine_ascii,
    readHeader_insert pre _ tail io hpre (by decide) (by decide) readHeaderLine_ascii⟩

set_option maxRecDepth 100000 in
/-- C14 (amended), at the line `format ascii 1.0` put after `ply`, before
`element vertex 3` and `end_header`. -/
theorem readHeader_format_ascii_witness :
    (∀ l ∈ ["ply".toList], '\n' ∉ l ∧ l ≠ end_header)
      ∧ readHeader ⟨0⟩ (joinLines (["ply".toList] ++ ["format ascii 1.0".toList])
          (joinLines ["element vertex 3".toList, "end_header".toList] []))
        = .ok (⟨3⟩, true, []) :=
  ⟨by decide,
    (readHeader_format_ascii ["ply".toList]
      (joinLines ["element vertex 3".toList, "end_header".toList] []) ⟨0⟩
      (by decide)).2.trans (by decide)⟩

end Ply2

set_option maxRecDepth 100000 in
/-- C16 (fails on the code): a file of `ply2.cpp` that declares 2 vertices and holds 16
payload bytes (30 are needed), and a file of `ply.cpp` that declares 2 vertices and
holds 13 payload bytes (24 are needed for `x`, `y`, `z`): `read` raises no error and
returns two records, the second one holding the bytes that were left followed by
zeros. -/
theorem read_short_payload_returns :
    Ply2.read true ⟨0⟩ []
        (joinLines ["ply".toList, "format binary_little_endian 1.0".toList,
          "element vertex 2".toList, "property float x".toList, "property float y".toList,
          "property float z".toList, "property uchar r".toList, "property uchar g".toList,
          "property uchar b".toList, "end_header".toList] "abcdefghijklmnop".toList)
      = .ok (⟨2⟩, [Ply2.CustomVertex.ofBytes "abcdefghijklmno".toList,
          Ply2.CustomVertex.ofBytes "p".toList])
    ∧ Ply.read ⟨0, []⟩ []
        (joinLines ["ply".toList, "format binary_little_endian 1.0".toList,
          "element vertex 2".toList, "end_header".toList] "abcdefghijklm".toList)
      = .ok (⟨2, Ply.xyzProperties⟩, [Ply.CustomVertex.ofBytes "abcdefghijkl".toList,
          Ply.CustomVertex.ofBytes "m".toList]) := by
  decide

/-- C16 (amended): when the count that the header of a `ply2.cpp` file declares is at
most `max_size()` of the vector and the payload after the header is the bytes of fewer
complete vertices than declared, followed by fewer than 15 more bytes, `read` (into an
empty vector) raises no error: it returns as many records as declared, the complete
ones as stored, then one made of the bytes that were left followed by zeros, then
zero-filled ones.  When the count of a `ply.cpp` file is at most `max_size()` and
nothing follows its header, its `read` raises no error either and returns as many
zero-filled records as declared.  When the count exceeds `max_size()`, `read` of either
file fails with the `std::length_error` of `vertices.resize`, whatever the payload. -/
theorem read_short_payload (hostLE : Bool) (io io2 : Ply2.PlyBinaryIO) (file : Str)
    (le : Bool) (full : List Ply2.CustomVertex) (part : Str)
    (hh : Ply2.readHeader io file = .ok (io2, le, Ply2.writeVertices full [] ++ part))
    (hmax : io2.vertex_count_ ≤ max_size Ply2.sizeofCustomVertex)
    (hp : part.length < 15) (hn : full.length < io2.vertex_count_) :
    Ply2.read hostLE io [] file =
        .ok (io2, full
          ++ Ply2.CustomVertex.ofBytes (overlay Ply2.CustomVertex.zero.bytes part)
          :: List.replicate (io2.vertex_count_ - full.length - 1) Ply2.CustomVertex.zero)
      ∧ (∀ (pio pio2 : Ply.PlyBinaryIO) (pfile : Str),
          (∀ p ∈ pio.custom_properties_, p.offset ≤ 16) →
          Ply.readHeader pio pfile = .ok (pio2, []) →
          pio2.vertex_count_ ≤ max_size Ply.sizeofCustomVertex →
          Ply.read pio [] pfile
            = .ok (pio2, List.replicate pio2.vertex_count_ Ply.CustomVertex.zero))
      ∧ (∀ (io3 io4 : Ply2.PlyBinaryIO) (file3 rest3 : Str) (le3 : Bool)
          (vertices : List Ply2.CustomVertex),
          Ply2.readHeader io3 file3 = .ok (io4, le3, rest3) →
          max_size Ply2.sizeofCustomVertex < io4.vertex_count_ →
          Ply2.read hostLE io3 vertices file3 = .error .lengthError)
      ∧ (∀ (pio pio2 : Ply.PlyBinaryIO) (pfile prest : Str)
          (vertices : List Ply.CustomVertex),
          Ply.readHeader pio pfile = .ok (pio2, prest) →
          max_size Ply.sizeofCustomVertex < pio2.vertex_count_ →
          Ply.read pio vertices pfile = .error .lengthError) := by
  refine ⟨?_, ?_, ?_, ?_⟩
  · have hrep : List.replicate io2.vertex_count_ Ply2.CustomVertex.zero
        = List.replicate full.length Ply2.CustomVertex.zero
          ++ Ply2.CustomVertex.zero
          :: List.replicate (io2.vertex_count_ - full.length - 1) Ply2.CustomVertex.zero := by
      have e : io2.vertex_count_
          = full.length + ((io2.vertex_count_ - full.length - 1) + 1) := by omega
      conv => lhs; rw [e]
      rw [List.replicate_add, List.replicate_succ]
    unfold Ply2.read
    rw [hh]
    simp only []
    rw [Ply2.resize_ok _ _ hmax]
    simp only []
    rw [Ply2.resized_nil, hrep,
      Ply2.readVertices_short _ full _ _ _ part (by simp) hp]
  · intro pio pio2 pfile hoff hh2 hmax2
    have hoff2 : ∀ p ∈ pio2.custom_properties_, p.offset ≤ 16 := by
      rcases Ply.ply_readHeader_shape pio pio2 pfile [] hh2 with h | ⟨l, h⟩
      · rw [h]; exact hoff
      · rw [h]; exact Ply.lineProperties_offset_le l
    unfold Ply.read
    rw [hh2]
    simp only []
    rw [Ply.ply_resize_ok _ _ hmax2]
    simp only []
    rw [Ply.ply_resized_nil, Ply.ply_readVertices_empty _ _ hoff2]
  · intro io3 io4 file3 rest3 le3 vertices hh3 hbig
    unfold Ply2.read
    rw [hh3]
    simp only []
    rw [Ply2.resize_error _ _ hbig]
  · intro pio pio2 pfile prest vertices hh4 hbig
    unfold Ply.read
    rw [hh4]
    simp only []
    rw [Ply.ply_resize_error _ _ hbig]

set_option maxRecDepth 100000 in
/-- C16 (amended), at the `ply2.cpp` file that declares 2 vertices and holds the 15
bytes `abcdefghijklmno` of one vertex followed by the byte `p`, and at the file that
declares `element vertex -1`, a count of 18446744073709551615. -/
theorem read_short_payload_witness :
    Ply2.readHeader ⟨0⟩
        (joinLines ["ply".toList, "format binary_little_endian 1.0".toList,
          "element vertex 2".toList, "property float x".toList, "property float y".toList,
          "property float z".toList, "property uchar r".toList, "property uchar g".toList,
          "property uchar b".toList, "end_header".toList] "abcdefghijklmnop".toList)
      = .ok (⟨2⟩, true,
          Ply2.writeVertices [Ply2.CustomVertex.ofBytes "abcdefghijklmno".toList] []
            ++ "p".toList)
    ∧ 2 ≤ max_size Ply2.sizeofCustomVertex
    ∧ "p".toList.length < 15
    ∧ [Ply2.CustomVertex.ofBytes "abcdefghijklmno".toList].length < 2
    ∧ Ply2.read true ⟨0⟩ []
        (joinLines ["ply".toList, "format binary_little_endian 1.0".toList,
          "element vertex 2".toList, "property float x".toList, "property float y".toList,
          "property float z".toList, "property uchar r".toList, "property uchar g".toList,
          "property uchar b".toList, "end_header".toList] "abcdefghijklmnop".toList)
      = .ok (⟨2⟩, [Ply2.CustomVertex.ofBytes "abcdefghijklmno".toList,
          Ply2.CustomVertex.ofBytes "p".toList])
    ∧ Ply2.read true ⟨0⟩ []
        (joinLines ["ply".toList, "element vertex -1".toList, "end_header".toList] [])
      = .error .lengthError :=
  have h := read_short_payload true ⟨0⟩ ⟨2⟩
    (joinLines ["ply".toList, "format binary_little_endian 1.0".toList,
      "element vertex 2".toList, "property float x".toList, "property float y".toList,
      "property float z".toList, "property uchar r".toList, "property uchar g".toList,
      "property uchar b".toList, "end_header".toList] "abcdefghijklmnop".toList) true
    [Ply2.CustomVertex.ofBytes "abcdefghijklmno".toList] "p".toList
    (by decide) (by decide) (by decide) (by decide)
  ⟨by decide, by decide, by decide, by decide, h.1.trans (by decide),
    h.2.2.1 ⟨0⟩ ⟨18446744073709551615⟩
      (joinLines ["ply".toList, "element vertex -1".toList, "end_header".toList] []) []
      true [] (by decide) (by decide)⟩

namespace Ply

/-- C18: the schema of a new object satisfies the packing invariant, and whenever the
schema of the object satisfies it before `readHeader` of `ply.cpp`, the schema held
after `readHeader` has returned satisfies it, for every text: each field's offset is
the sum of the widths of the fields before it (0 for the first), each field's width is
the width of its type, and the offsets are strictly increasing. -/
theorem readHeader_packed (io io2 : PlyBinaryIO) (file rest : Str)
    (hio : packed io.custom_properties_ = true)
    (h : readHeader io file = .ok (io2, rest)) :
    (∀ i p, io2.custom_properties_[i]? = some p →
        p.offset = ((io2.custom_properties_.take i).map (fun q => q.size)).sum
          ∧ p.size = sizeofType p.type)
      ∧ List.Pairwise (fun p q => p.offset < q.offset) io2.custom_properties_
      ∧ packed io2.custom_properties_ = true
      ∧ packed ( PlyBinaryIO.new).custom_properties_ = true := by
  have hp : packed io2.custom_properties_ = true := by
    rcases ply_readHeader_shape io io2 file rest h with h2 | ⟨l, h2⟩
    · rw [h2]; exact hio
    · rw [h2]; exact lineProperties_packed l
  refine ⟨?_, packedFrom_increasing 0 _ hp, hp, rfl⟩
  intro i p hip
  have := packedFrom_spec 0 _ hp i p hip
  rw [Nat.zero_add] at this
  exact this

set_option maxRecDepth 100000 in
/-- C18, at a new object and the header `ply`, `element vertex 3`, `property float x`,
`property double w`, `end_header`. -/
theorem readHeader_packed_witness :
    packed ( PlyBinaryIO.new).custom_properties_ = true
      ∧ readHeader ( PlyBinaryIO.new) (joinLines ["ply".toList, "element vertex 3".toList,
          "property float x".toList, "property double w".toList, "end_header".toList] [])
        = .ok (⟨3, xyzProperties ++ [⟨"w".toList, 12, 8, .DOUBLE⟩]⟩, [])
      ∧ List.Pairwise (fun p q => p.offset < q.offset)
          (xyzProperties ++ [⟨"w".toList, 12, 8, .DOUBLE⟩]) :=
  ⟨by decide, by decide,
    (readHeader_packed ( PlyBinaryIO.new) ⟨3, xyzProperties ++ [⟨"w".toList, 12, 8, .DOUBLE⟩]⟩
      (joinLines ["ply".toList, "element vertex 3".toList,
          "property float x".toList, "property double w".toList, "end_header".toList] [])
      [] (by decide) (by decide)).2.1⟩

end Ply

namespace Ply

/-- C21: for every text with at least one line before `end_header` (or before the end
of the input), the schema held when `readHeader` of `ply.cpp` has returned is the one
its loop body derives from the last such line alone: `x`, `y`, `z` of type float at
offsets 0, 4, 8, followed by at most one further field, at offset 12, named by the
third token of that line; the further field is there exactly when that line contains
`property`, has at least three tokens and its second token is one of the eight type
names.  Earlier lines do not enter the schema. -/
theorem readHeader_schema (io io2 : PlyBinaryIO) (file rest last : Str)
    (hlast : (headerLines file).getLast? = some last)
    (h : readHeader io file = .ok (io2, rest)) :
    io2.custom_properties_ = lineProperties last
      ∧ (io2.custom_properties_
            = [⟨"x".toList, 0, 4, .FLOAT⟩, ⟨"y".toList, 4, 4, .FLOAT⟩,
               ⟨"z".toList, 8, 4, .FLOAT⟩]
          ∨ ∃ t, (tokenize last).getD 1 [] = TypeInfo.name t
              ∧ io2.custom_properties_
                = [⟨"x".toList, 0, 4, .FLOAT⟩, ⟨"y".toList, 4, 4, .FLOAT⟩,
                   ⟨"z".toList, 8, 4, .FLOAT⟩,
                   ⟨(tokenize last).getD 2 [], 12, sizeofType t, t⟩])
      ∧ (io2.custom_properties_
            ≠ [⟨"x".toList, 0, 4, .FLOAT⟩, ⟨"y".toList, 4, 4, .FLOAT⟩,
               ⟨"z".toList, 8, 4, .FLOAT⟩]
          ↔ (contains last "property".toList = true ∧ 3 ≤ (tokenize last).length
              ∧ ∃ t, (tokenize last).getD 1 [] = TypeInfo.name t)) := by
  have hp : io2.custom_properties_ = lineProperties last := by
    rw [ply_readHeader_lines] at h
    cases hl : readHeaderLines (headerLines file) io with
    | error e => rw [hl] at h; cases h
    | ok io1 =>
      rw [hl] at h
      simp only [Except.ok.injEq, Prod.mk.injEq] at h
      rw [← h.1]
      exact ply_readHeaderLines_last _ io io1 last hl hlast
  refine ⟨hp, ?_, ?_⟩
  · rw [hp]
    exact lineProperties_field last
  · rw [hp]
    exact lineProperties_extra last

set_option maxRecDepth 100000 in
/-- C21, at a new object and the header `ply`, `element vertex 3`, `property float x`,
`property uchar r`, `property double w`, `end_header`. -/
theorem readHeader_schema_witness :
    (headerLines (joinLines ["ply".toList, "element vertex 3".toList,
        "property float x".toList, "property uchar r".toList,
        "property double w".toList, "end_header".toList] [])).getLast?
        = some "property double w".toList
      ∧ readHeader ⟨0, []⟩ (joinLines ["ply".toList, "element vertex 3".toList,
          "property float x".toList, "property uchar r".toList,
          "property double w".toList, "end_header".toList] [])
        = .ok (⟨3, [⟨"x".toList, 0, 4, .FLOAT⟩, ⟨"y".toList, 4, 4, .FLOAT⟩,
            ⟨"z".toList, 8, 4, .FLOAT⟩, ⟨"w".toList, 12, 8, .DOUBLE⟩]⟩, [])
      ∧ lineProperties "property double w".toList
        = [⟨"x".toList, 0, 4, .FLOAT⟩, ⟨"y".toList, 4, 4, .FLOAT⟩,
            ⟨"z".toList, 8, 4, .FLOAT⟩, ⟨"w".toList, 12, 8, .DOUBLE⟩] :=
  ⟨by decide, by decide,
    (readHeader_schema ⟨0, []⟩ ⟨3, [⟨"x".toList, 0, 4, .FLOAT⟩, ⟨"y".toList, 4, 4, .FLOAT⟩,
        ⟨"z".toList, 8, 4, .FLOAT⟩, ⟨"w".toList, 12, 8, .DOUBLE⟩]⟩
      (joinLines ["ply".toList, "element vertex 3".toList,
        "property float x".toList, "property uchar r".toList,
        "property double w".toList, "end_header".toList] []) []
      "property double w".toList (by decide) (by decide)).1.symm⟩

end Ply

namespace Ply2

/-- C22: for every string `s` and every delimiter set `d`, `split s d` of `ply2.cpp` is
the list of the maximal runs of non-delimiter characters of `s`, in order: every token
is non-empty and holds no character of `d`, the tokens concatenated are `s` with the
characters of `d` removed, and `tokenize` of `ply.cpp` returns the same list as `split`
with the delimiter set made of the space. -/
theorem split_spec (s d : Str) :
    split s d = runs d s
      ∧ (∀ t ∈ split s d, t ≠ [] ∧ ∀ c ∈ t, c ∉ d)
      ∧ (split s d).flatten = s.filter (fun c => decide (c ∉ d))
      ∧ Ply.tokenize s = split s " ".toList := by
  have hr := runsAux_spec d [] s (by simp)
  refine ⟨split_eq_runs s d, ?_, ?_, ?_⟩
  · rw [split_eq_runs]
    exact hr.1
  · rw [split_eq_runs]
    exact hr.2
  · rw [split_eq_runs, Ply.tokenize_eq_runs]
    rfl

end Ply2

end Libply
